import Mathlib

/-
Verification of the erasure-coding engine of the SAN simulator
(Reed-Solomon vs Local Reconstruction Codes).

Byte strings are modelled as `List Nat` (each entry a byte value).
Fallible Python code is modelled with `Option`: `none` stands for an
exception propagating out of the modelled function.

The reedsolo GF(256) library is external to the repository; the spec
declares the field arithmetic a delegated primitive.  Its observable
contract (systematic code, erasure decoding up to `nsym` byte erasures,
failure beyond that) is modelled by `rscParity`/`rscDecode` below; the
retained `self.rsc` codec state is modelled by passing the data it
encoded (a ghost parameter) to the decoding functions.
-/

namespace SanSim

/-- Python integer ceiling division `(a + b - 1) // b` as used throughout the encoders. -/
def ceilDiv (a b : Nat) : Nat := (a + b - 1) / b

/-- Trailing-zero stripping (`while out and out[-1] == 0: out.pop()`). -/
def stripZeros (l : List Nat) : List Nat := (l.reverse.dropWhile (fun x => x = 0)).reverse

/-- One data fragment: slice `data[i*fs : (i+1)*fs]` right-padded with zero bytes to
length `fs` (EncoderLRC.encode, lines 66-71). -/
def dataFragment (data : List Nat) (fs i : Nat) : List Nat :=
  ((data.drop (i * fs)).take fs) ++ List.replicate (fs - ((data.drop (i * fs)).take fs).length) 0

/-- The `k` padded data fragments of a payload (EncoderLRC.encode). -/
def dataFragmentsOf (data : List Nat) (k : Nat) : List (List Nat) :=
  (List.range k).map (dataFragment data (ceilDiv data.length k))

/-- Bytewise XOR of a list of fragments, byte by byte
(`for i in range(fragment_size): v = 0; for frag in group_frags: v ^= frag[i]`). -/
def xorAll (fs : Nat) (frags : List (List Nat)) : List Nat :=
  (List.range fs).map (fun i => frags.foldl (fun v f => v ^^^ f.getD i 0) 0)

/-- LRC configuration: `k` data fragments, `gs` group size, `lp` local parities
per group, `gp` global RS parities (EncoderLRC.__init__). -/
structure LRCConfig where
  k : Nat
  gs : Nat
  lp : Nat
  gp : Nat
deriving DecidableEq

/-- `self.num_groups = (k + group_size - 1) // group_size`. -/
def numGroups (cfg : LRCConfig) : Nat := ceilDiv cfg.k cfg.gs

/-- `self.total_fragments = k + num_groups * local_parity + global_parity`. -/
def totalFragments (cfg : LRCConfig) : Nat :=
  cfg.k + numGroups cfg * cfg.lp + cfg.gp

/-- Modelled from the spec: the parity bytes produced by the external reedsolo
`RSCodec(nsym).encode` (a systematic linear code appends `nsym` parity bytes to the
message; the repository delegates the GF(256) arithmetic, so only the length and the
decoding contract `rscDecode` of the parity are meaningful in this model). -/
def rscParity (nsym : Nat) (data : List Nat) : List Nat :=
  List.replicate nsym 0

/-- Modelled from the spec: the external reedsolo `RSCodec.decode(word, erase_pos)`
erasure decoder.  `trueCw` is the codeword the retained codec encoded (ghost state).
It fails (raises `ReedSolomonError`) when more than `nsym` byte positions are erased;
within capacity it returns the message part of the unique codeword agreeing with the
received word on the non-erased positions: when the received word is the true codeword
with the erased positions overwritten, that is the true message; when exactly the
`nsym` trailing parity positions are erased, the unconstrained message region is
returned unchanged.  Any behaviour not determined by this contract is modelled as
failure. -/
def rscDecode (nsym : Nat) (trueCw received erasures : List Nat) : Option (List Nat) :=
  if nsym < erasures.length then none
  else if received.length = trueCw.length ∧
      (∀ i ∈ List.range received.length, i ∉ erasures → received.getD i 0 = trueCw.getD i 0) then
    some (trueCw.take (trueCw.length - nsym))
  else if (∀ e ∈ erasures, received.length - nsym ≤ e ∧ e < received.length) ∧
      (∀ i ∈ List.range' (received.length - nsym) nsym, i ∈ erasures) then
    some (received.take (received.length - nsym))
  else none

/-- EncoderLRC.encode: `k` padded data fragments, one XOR local parity per group
(note: one per group regardless of `lp`), then `gp` slices of the RS parity over
the concatenated data fragments. -/
def encodeLRC (cfg : LRCConfig) (data : List Nat) : List (List Nat) :=
  let fs := ceilDiv data.length cfg.k
  let dfs := dataFragmentsOf data cfg.k
  let lps := (List.range (numGroups cfg)).map
    (fun g => xorAll fs ((dfs.drop (g * cfg.gs)).take cfg.gs))
  let nsym := cfg.gp * fs
  let par := rscParity nsym dfs.flatten
  let gps := (List.range cfg.gp).map (fun i => (par.drop (i * fs)).take fs)
  dfs ++ lps ++ gps

/-- The ordered fragment list with erased (failed) positions replaced by `none`,
as built by the simulator from the cluster state. -/
def maskFragments (frags : List (List Nat)) (failed : List Nat) : List (Option (List Nat)) :=
  (List.range frags.length).map (fun i => if i ∈ failed then none else some (frags.getD i []))

/-- EncoderLRC.local_repair: XOR-based recovery of a single missing data fragment
from its group's survivors and local parity.  `fs` models `self.fragment_size`. -/
def local_repair (cfg : LRCConfig) (fs : Nat) (fragments : List (Option (List Nat)))
    (missing : Nat) : Option (List Nat) :=
  let gid := missing / cfg.gs
  let start := gid * cfg.gs
  let e := min (start + cfg.gs) cfg.k
  let lpIdx := cfg.k + gid
  match fragments.getD lpIdx none with
  | none => none
  | some lp =>
    let avail := ((List.range' start (e - start)).filter
      (fun i => (fragments.getD i none).isSome ∧ i ≠ missing)).map
      (fun i => (fragments.getD i none).getD [])
    if avail.length = e - start - 1 then
      some ((List.range fs).map
        (fun i => avail.foldl (fun v f => v ^^^ f.getD i 0) (lp.getD i 0)))
    else none

/-- The `available_data` list of EncoderLRC.global_repair: data fragments with
erased ones replaced by zero-filled buffers. -/
def availableDataOf (cfg : LRCConfig) (fs : Nat) (fragments : List (Option (List Nat))) :
    List (List Nat) :=
  (List.range cfg.k).map
    (fun i => match fragments.getD i none with
      | some f => f
      | none => List.replicate fs 0)

/-- The `data_erasures` list of EncoderLRC.global_repair (0-based data positions). -/
def dataErasuresOf (cfg : LRCConfig) (fragments : List (Option (List Nat))) : List Nat :=
  (List.range cfg.k).filter (fun i => fragments.getD i none = none)

/-- The `available_global` list of EncoderLRC.global_repair (positions
`global_start + j`, `global_start = k + num_groups * local_parity`). -/
def availableGlobalOf (cfg : LRCConfig) (fs : Nat) (fragments : List (Option (List Nat))) :
    List (List Nat) :=
  (List.range cfg.gp).map
    (fun j => match fragments.getD (cfg.k + numGroups cfg * cfg.lp + j) none with
      | some f => f
      | none => List.replicate fs 0)

/-- The `global_erasures` list of EncoderLRC.global_repair (0-based positions within
the global-parity region). -/
def globalErasuresOf (cfg : LRCConfig) (fragments : List (Option (List Nat))) : List Nat :=
  (List.range cfg.gp).filter
    (fun j => fragments.getD (cfg.k + numGroups cfg * cfg.lp + j) none = none)

/-- The byte-level `erasures` positions of EncoderLRC.global_repair. -/
def erasuresOf (cfg : LRCConfig) (fs : Nat) (fragments : List (Option (List Nat))) : List Nat :=
  ((dataErasuresOf cfg fragments).map (fun p => (List.range fs).map (fun b => p * fs + b))).flatten
    ++ ((globalErasuresOf cfg fragments).map
      (fun p => (List.range fs).map (fun b => (cfg.k + p) * fs + b))).flatten

/-- EncoderLRC.global_repair.  `payload` is the ghost parameter carrying the data the
retained `self.rsc` codec encoded (and `self.fragment_size`); `none` models an
exception escaping the function (an out-of-range fragment index in the
`available_data`/`available_global` loops), while a failing RS decode is caught inside
and answered with the zero-filled fallback, exactly as in the source. -/
def global_repair (cfg : LRCConfig) (payload : List Nat)
    (fragments : List (Option (List Nat))) : Option (List Nat) :=
  let fs := ceilDiv payload.length cfg.k
  if totalFragments cfg ≤ fragments.length then
    if dataErasuresOf cfg fragments = [] ∧ globalErasuresOf cfg fragments = [] then
      some (stripZeros (availableDataOf cfg fs fragments).flatten)
    else
      let received := (availableDataOf cfg fs fragments ++ availableGlobalOf cfg fs fragments).flatten
      let dataBytes := (dataFragmentsOf payload cfg.k).flatten
      let trueCw := dataBytes ++ rscParity (cfg.gp * fs) dataBytes
      match rscDecode (cfg.gp * fs) trueCw received (erasuresOf cfg fs fragments) with
      | some msg =>
        some (stripZeros ((List.range cfg.k).map (fun i => (msg.drop (i * fs)).take fs)).flatten)
      | none => some (stripZeros (availableDataOf cfg fs fragments).flatten)
  else none

/-- The repair strategy chosen by Simulator._reconstruct_lrc, mirroring its
`repair_strategy` strings. -/
inductive Strategy where
  | default
  | localXor
  | globalParityUnavailable
  | globalParityFailed
  | globalMultiple
deriving DecidableEq

/-- Result of one LRC reconstruction attempt. -/
structure LRCResult where
  recovered : Option (List Nat)
  fragmentsAccessed : Nat
  localRepairUsed : Bool
  strategy : Strategy
deriving DecidableEq

/-- Simulator._reconstruct_lrc on the fragment list obtained by encoding `payload`
with `cfg` and erasing the positions in `failed`: strategy selection (local repair
only for a single data-fragment failure whose local parity survives), then the
selected reconstruction. -/
def reconstructLRC (cfg : LRCConfig) (payload : List Nat) (failed : List Nat) : LRCResult :=
  let frags := maskFragments (encodeLRC cfg payload) failed
  let fs := ceilDiv payload.length cfg.k
  let failedPositions := (List.range frags.length).filter (fun i => frags.getD i none = none)
  match failedPositions with
  | [] => ⟨global_repair cfg payload frags, frags.length - failedPositions.length, false,
      Strategy.default⟩
  | [d] =>
    if d < cfg.k then
      let gid := d / cfg.gs
      let groupStart := gid * cfg.gs
      let groupEnd := min (groupStart + cfg.gs) cfg.k
      let lpIdx := cfg.k + gid
      if lpIdx < frags.length ∧ frags.getD lpIdx none ≠ none then
        let accessed := (groupEnd - groupStart - 1) + 1
        match local_repair cfg fs frags d with
        | none => ⟨none, accessed, true, Strategy.localXor⟩
        | some rf =>
          let out := ((List.range cfg.k).map
            (fun i => if i = d then rf else (frags.getD i none).getD [])).flatten
          ⟨some (stripZeros out), accessed, true, Strategy.localXor⟩
      else
        ⟨global_repair cfg payload frags, cfg.k + cfg.gp, false, Strategy.globalParityUnavailable⟩
    else
      ⟨global_repair cfg payload frags, cfg.k + cfg.gp, false, Strategy.globalParityFailed⟩
  | _ :: _ :: _ =>
    ⟨global_repair cfg payload frags, cfg.k + cfg.gp, false, Strategy.globalMultiple⟩

/-- EncoderRS.encode: the raw payload plus `r * fragment_size` RS parity bytes,
split into `k + r` consecutive slices of `fragment_size` bytes (no padding: trailing
slices may be short or empty when the payload length is not a multiple of `k`). -/
def encodeRS (k r : Nat) (data : List Nat) : List (List Nat) :=
  let fs := ceilDiv data.length k
  let codeword := data ++ rscParity (r * fs) data
  (List.range (k + r)).map (fun i => (codeword.drop (i * fs)).take fs)

/-- Python `bytearray` slice assignment `cw[s:e] = f` (clamped; resizes when
`f` is shorter or longer than the slice). -/
def sliceAssign (cw : List Nat) (s e : Nat) (f : List Nat) : List Nat :=
  cw.take s ++ f ++ cw.drop e

/-- The fragment buffers EncoderRS.decode places into the rebuilt codeword: the
fragment itself when available, the zero filler left in place when missing. -/
def rsPieces (total fs : Nat) (fragments : List (Option (List Nat))) : List (List Nat) :=
  (List.range total).map (fun i => match fragments.getD i none with
    | some f => f
    | none => List.replicate fs 0)

/-- The byte-level erasure positions EncoderRS.decode records for missing fragments. -/
def rsErasures (total fs : Nat) (fragments : List (Option (List Nat))) : List Nat :=
  (((List.range total).filter (fun i => fragments.getD i none = none)).map
    (fun i => (List.range fs).map (fun j => i * fs + j))).flatten

/-- The codeword-rebuilding loop of EncoderRS.decode: start from `total * fs` zero
bytes, slice-assign each available fragment at its position (Python bytearray
semantics), and record byte erasure positions for the missing ones. -/
def buildCodeword (total fs : Nat) (fragments : List (Option (List Nat))) :
    List Nat × List Nat :=
  (List.range total).foldl
    (fun acc i => match fragments.getD i none with
      | some f => (sliceAssign acc.1 (i * fs) (i * fs + fs) f, acc.2)
      | none => (acc.1, acc.2 ++ (List.range fs).map (fun j => i * fs + j)))
    (List.replicate (total * fs) 0, [])

/-- EncoderRS.decode on an ordered fragment list with `none` for erased entries.
`payload` is the ghost parameter for the retained `self.rsc`/`self.nsym` from
encoding.  Returns `none` for an exception (too few fragments, no fragment
available, or an RS failure, which this function does not catch). -/
def decodeRS (k r : Nat) (payload : List Nat) (fragments : List (Option (List Nat))) :
    Option (List Nat) :=
  if fragments.length < k then none
  else
    match (fragments.filterMap id).head? with
    | none => none
    | some f0 =>
      let fs := f0.length
      let build := buildCodeword (k + r) fs fragments
      let nsym := r * ceilDiv payload.length k
      let trueCw := payload ++ rscParity nsym payload
      rscDecode nsym trueCw build.1 build.2

/-- ScenarioRunner.validate_config: raises unless
`k + (k // gs) * lp + gp <= numNodes` (note the floor division, unlike the
encoder's ceiling division).  `true` means the configuration passes. -/
def validateConfig (numNodes k gs lp gp : Nat) : Bool :=
  decide (k + (k / gs) * lp + gp ≤ numNodes)

/-- Cluster.distribute_fragments raises unless the fragment count fits the node
count; `true` means distribution succeeds. -/
def distributeOk (numNodes : Nat) (frags : List (List Nat)) : Bool :=
  decide (frags.length ≤ numNodes)

/-- A storage node: id, optionally stored fragment, liveness flag (node.py). -/
structure NodeSt where
  node_id : Nat
  fragment : Option (List Nat)
  is_alive : Bool
deriving DecidableEq

/-- Node.fail / Node.recover applied at a list position (as in
Cluster.fail_nodes_by_indices, which guards the index range). -/
def setAliveAt (nodes : List NodeSt) (i : Nat) (b : Bool) : List NodeSt :=
  match nodes.get? i with
  | some nd => nodes.set i ⟨nd.node_id, nd.fragment, b⟩
  | none => nodes

/-- The node-mutating cluster operations: positional fail/recover and
Cluster.reset_all_nodes. -/
inductive ClusterCmd where
  | failAt (i : Nat)
  | recoverAt (i : Nat)
  | resetAll

/-- One cluster liveness operation. -/
def stepCmd (nodes : List NodeSt) : ClusterCmd → List NodeSt
  | ClusterCmd.failAt i => setAliveAt nodes i false
  | ClusterCmd.recoverAt i => setAliveAt nodes i true
  | ClusterCmd.resetAll => nodes.map (fun nd => ⟨nd.node_id, nd.fragment, true⟩)

/-- A sequence of liveness operations. -/
def runCmds (nodes : List NodeSt) (cmds : List ClusterCmd) : List NodeSt :=
  cmds.foldl stepCmd nodes

/-- Cluster.fail_nodes: the alive population, the clamped failure count, and the
state/result for a given sample (the list of node ids chosen by `random.sample`).
Marks exactly the sampled nodes dead and returns their ids. -/
def fail_nodes (nodes : List NodeSt) (sample : List Nat) : List NodeSt × List Nat :=
  ((nodes.map (fun nd => if nd.node_id ∈ sample then ⟨nd.node_id, nd.fragment, false⟩ else nd)),
    sample)

/-- The alive nodes of a cluster (`Cluster.get_alive_nodes` /
the `available_nodes` of `fail_nodes`). -/
def aliveNodes (nodes : List NodeSt) : List NodeSt :=
  nodes.filter (fun nd => nd.is_alive)

/-- The clamped failure count of Cluster.fail_nodes
(`if failure_count > len(available_nodes): failure_count = len(available_nodes)`). -/
def clampedCount (nodes : List NodeSt) (count : Nat) : Nat :=
  min count (aliveNodes nodes).length

/-- A 24-byte test payload (the spec scenario: k = 6, fragment_size = 4). -/
def pay24 : List Nat :=
  [1, 2, 3, 4, 5, 6, 7, 8, 9, 10, 11, 12, 13, 14, 15, 16, 17, 18, 19, 20, 21, 22, 23, 24]

/-- A 7-byte payload (length not a multiple of k = 6). -/
def pay7 : List Nat := [1, 2, 3, 4, 5, 6, 7]

/-- A 24-byte payload whose last byte is zero (ambiguous with padding). -/
def pay24z : List Nat :=
  [1, 2, 3, 4, 5, 6, 7, 8, 9, 10, 11, 12, 13, 14, 15, 16, 17, 18, 19, 20, 21, 22, 23, 0]

/-! Basic arithmetic and list lemmas. -/

theorem ceilDiv_mul_le (a b : Nat) (hb : 0 < b) : a ≤ ceilDiv a b * b := by
  have h1 := Nat.div_add_mod (a + b - 1) b
  have h2 := Nat.mod_lt (a + b - 1) hb
  unfold ceilDiv
  rw [Nat.mul_comm]
  omega

theorem ceilDiv_of_dvd (a b : Nat) (hb : 0 < b) (hd : b ∣ a) : ceilDiv a b = a / b := by
  obtain ⟨c, rfl⟩ := hd
  unfold ceilDiv
  rw [Nat.mul_div_cancel_left _ hb]
  rcases Nat.eq_zero_or_pos c with h | h
  · subst h
    simp [Nat.div_eq_of_lt, Nat.sub_lt hb]
  · have he : b * c + b - 1 = (b - 1) + c * b := by
      rw [Nat.mul_comm]
      omega
    rw [he, Nat.add_mul_div_right _ _ hb, Nat.div_eq_of_lt (by omega)]
    omega

theorem ceilDiv_pos (a b : Nat) (ha : 0 < a) (hb : 0 < b) : 0 < ceilDiv a b := by
  have := ceilDiv_mul_le a b hb
  by_contra hc
  push_neg at hc
  interval_cases h : ceilDiv a b
  omega

theorem getD_range_map {α : Type} (n i : Nat) (f : Nat → α) (d : α) (h : i < n) :
    ((List.range n).map f).getD i d = f i := by
  simp [List.getD, List.getElem?_map, List.getElem?_range h]

theorem getD_range_map_oob {α : Type} (n i : Nat) (f : Nat → α) (d : α) (h : n ≤ i) :
    ((List.range n).map f).getD i d = d := by
  simp [List.getD, List.getElem?_eq_none, h]

theorem getD_append_left {α : Type} (a b : List α) (i : Nat) (d : α) (h : i < a.length) :
    (a ++ b).getD i d = a.getD i d := by
  simp [List.getD, List.getElem?_append_left h]

theorem getD_append_right {α : Type} (a b : List α) (i : Nat) (d : α) (h : a.length ≤ i) :
    (a ++ b).getD i d = b.getD (i - a.length) d := by
  simp [List.getD, List.getElem?_append_right h]

theorem length_dataFragment (data : List Nat) (fs i : Nat) :
    (dataFragment data fs i).length = fs := by
  unfold dataFragment
  simp [List.length_append, List.length_replicate]

theorem length_dataFragmentsOf (data : List Nat) (k : Nat) :
    (dataFragmentsOf data k).length = k := by
  simp [dataFragmentsOf]

theorem length_xorAll (fs : Nat) (frags : List (List Nat)) : (xorAll fs frags).length = fs := by
  simp [xorAll]

theorem flatten_length_uniform (L : List (List Nat)) (fs : Nat)
    (h : ∀ x ∈ L, x.length = fs) : L.flatten.length = L.length * fs := by
  induction L with
  | nil => simp
  | cons a t ih =>
    simp only [List.flatten_cons, List.length_append, List.length_cons]
    rw [ih (fun x hx => h x (by simp [hx])), h a (by simp)]
    ring

theorem flatten_getD_uniform (L : List (List Nat)) (fs : Nat)
    (h : ∀ x ∈ L, x.length = fs) (q b : Nat) (hq : q < L.length) (hb : b < fs) :
    L.flatten.getD (q * fs + b) 0 = (L.getD q []).getD b 0 := by
  induction L generalizing q with
  | nil => simp at hq
  | cons a t ih =>
    cases q with
    | zero =>
      simp only [List.flatten_cons, Nat.zero_mul, Nat.zero_add]
      rw [getD_append_left _ _ _ _ (by rw [h a (by simp)] ; exact hb)]
      rfl
    | succ q' =>
      simp only [List.flatten_cons]
      have ha : a.length = fs := h a (by simp)
      have : (q' + 1) * fs + b = a.length + (q' * fs + b) := by
        rw [ha]
        ring
      rw [this, getD_append_right _ _ _ _ (Nat.le_add_right ..), Nat.add_sub_cancel_left]
      rw [ih (fun x hx => h x (by simp [hx])) q' (by simpa using hq)]
      rfl

theorem take_slices_flatten (l : List Nat) (fs : Nat) :
    ∀ m, ((List.range m).map (fun i => (l.drop (i * fs)).take fs)).flatten = l.take (m * fs) := by
  intro m
  induction m with
  | zero => simp
  | succ n ih =>
    rw [List.range_succ, List.map_append, List.flatten_append, ih]
    have : (n + 1) * fs = n * fs + fs := by ring
    rw [this, List.take_add]
    simp

theorem flatten_frag_range (data : List Nat) (fs : Nat) :
    ∀ m, ((List.range m).map (dataFragment data fs)).flatten
      = data.take (m * fs) ++ List.replicate (m * fs - data.length) 0 := by
  intro m
  induction m with
  | zero => simp
  | succ n ih =>
    rw [List.range_succ, List.map_append, List.flatten_append, ih]
    simp only [List.map_cons, List.map_nil, List.flatten_cons, List.flatten_nil, List.append_nil]
    unfold dataFragment
    have hsucc : (n + 1) * fs = n * fs + fs := by ring
    rw [hsucc, List.take_add]
    simp only [List.append_assoc]
    congr 1
    rcases Nat.le_total data.length (n * fs) with hle | hle
    · rw [List.drop_eq_nil_of_le hle]
      simp only [List.take_nil, List.nil_append, List.length_nil, Nat.sub_zero]
      rw [← List.replicate_add]
      congr 1
      omega
    · rw [Nat.sub_eq_zero_of_le hle]
      simp only [List.replicate_zero, List.nil_append]
      congr 1
      · simp only [List.length_take, List.length_drop]
        congr 1
        omega

theorem dropWhile_replicate_append (m : Nat) (t : List Nat) :
    (List.replicate m 0 ++ t).dropWhile (fun x => decide (x = 0))
      = t.dropWhile (fun x => decide (x = 0)) := by
  induction m with
  | zero => rfl
  | succ n ih => simp [List.replicate_succ, List.dropWhile, ih]

theorem stripZeros_append_replicate (l : List Nat) (m : Nat) :
    stripZeros (l ++ List.replicate m 0) = stripZeros l := by
  unfold stripZeros
  rw [List.reverse_append, List.reverse_replicate, dropWhile_replicate_append]

theorem stripZeros_of_last_ne (l : List Nat) (a : Nat) (ha : a ≠ 0)
    (h : l.getLast? = some a) : stripZeros l = l := by
  unfold stripZeros
  have : l.reverse.head? = some a := by
    rwa [List.head?_reverse]
  rcases hr : l.reverse with _ | ⟨x, t⟩
  · simp [hr] at this
  · rw [hr] at this
    have hx : x = a := by
      simpa using this
    rw [List.dropWhile_cons_of_neg (by simp [hx, ha])]
    rw [← hr, List.reverse_reverse]

theorem stripZeros_flatten_frags (data : List Nat) (k : Nat) (hk : 0 < k) :
    stripZeros (dataFragmentsOf data k).flatten = stripZeros data := by
  unfold dataFragmentsOf
  rw [flatten_frag_range]
  rw [List.take_of_length_le (ceilDiv_mul_le data.length k hk |>.trans (by rw [Nat.mul_comm]))]
  exact stripZeros_append_replicate ..


/-! XOR-fold lemmas for local-parity reasoning. -/

theorem xorFold_base (f : Nat → Nat) (l : List Nat) :
    ∀ b, l.foldl (fun v j => v ^^^ f j) b = b ^^^ l.foldl (fun v j => v ^^^ f j) 0 := by
  induction l with
  | nil =>
    intro b
    simp
  | cons a t ih =>
    intro b
    simp only [List.foldl_cons]
    rw [ih (b ^^^ f a), ih (0 ^^^ f a), Nat.zero_xor, Nat.xor_assoc]

theorem xorFold_cancel (f : Nat → Nat) (l : List Nat) (d : Nat) (hnd : l.Nodup) (hd : d ∈ l) :
    (l.filter (fun j => decide (j ≠ d))).foldl (fun v j => v ^^^ f j)
      (l.foldl (fun v j => v ^^^ f j) 0) = f d := by
  induction l with
  | nil => simp at hd
  | cons a t ih =>
    rcases List.mem_cons.1 hd with rfl | hdt
    · have hat : ∀ x ∈ t, x ≠ d := by
        intro x hx hxd
        exact (List.nodup_cons.1 hnd).1 (by rwa [hxd] at hx)
      rw [List.filter_cons_of_neg (by simp)]
      have hft : t.filter (fun j => decide (j ≠ d)) = t :=
        List.filter_eq_self.2 (fun x hx => by simp [hat x hx])
      rw [hft]
      simp only [List.foldl_cons, Nat.zero_xor]
      rw [xorFold_base f t (List.foldl (fun v j => v ^^^ f j) (f d) t),
        xorFold_base f t (f d), Nat.xor_assoc, Nat.xor_self, Nat.xor_zero]
    · have had : a ≠ d := by
        intro h
        refine (List.nodup_cons.1 hnd).1 ?_
        rw [h]
        exact hdt
      rw [List.filter_cons_of_pos (by simp [had])]
      simp only [List.foldl_cons]
      have h1 : t.foldl (fun v j => v ^^^ f j) (0 ^^^ f a)
          = f a ^^^ t.foldl (fun v j => v ^^^ f j) 0 := by
        rw [Nat.zero_xor, xorFold_base]
      rw [h1]
      have h2 : (f a ^^^ t.foldl (fun v j => v ^^^ f j) 0) ^^^ f a
          = t.foldl (fun v j => v ^^^ f j) 0 := by
        rw [Nat.xor_comm (f a) (t.foldl (fun v j => v ^^^ f j) 0), Nat.xor_assoc,
          Nat.xor_self, Nat.xor_zero]
      rw [h2]
      exact ih (List.nodup_cons.1 hnd).2 hdt

/-! Slice and pointwise lemmas. -/

theorem slice_eq_range'_map {α : Type} (d : α) :
    ∀ (n s : Nat) (l : List α), s + n ≤ l.length →
      (l.drop s).take n = (List.range' s n).map (fun j => l.getD j d) := by
  intro n
  induction n with
  | zero => intro s l _ ; simp
  | succ m ih =>
    intro s l h
    have hs : s < l.length := by omega
    rw [List.drop_eq_getElem_cons hs, List.range'_succ, List.take_succ_cons, List.map_cons]
    congr 1
    · rw [List.getD_eq_getElem l d hs]
    · exact ih (s + 1) l (by omega)

theorem list_eq_range_map_getD {α : Type} (d : α) (l : List α) :
    l = (List.range l.length).map (fun i => l.getD i d) := by
  apply List.ext_getElem (by simp)
  intro i h1 h2
  simp only [List.getElem_map, List.getElem_range]
  rw [List.getD_eq_getElem l d h1]

theorem getD_slice (l : List Nat) (a b j : Nat) (hj : j < b) (h : a + b ≤ l.length) :
    ((l.drop a).take b).getD j 0 = l.getD (a + j) 0 := by
  have h1 : j < ((l.drop a).take b).length := by
    simp only [List.length_take, List.length_drop]
    omega
  have h2 : a + j < l.length := by omega
  rw [List.getD_eq_getElem _ 0 h1, List.getD_eq_getElem _ 0 h2]
  rw [List.getElem_take, List.getElem_drop]

/-! Structure of the LRC encoding. -/

theorem length_encodeLRC (cfg : LRCConfig) (data : List Nat) :
    (encodeLRC cfg data).length = cfg.k + numGroups cfg + cfg.gp := by
  simp [encodeLRC, dataFragmentsOf]
  omega

theorem encodeLRC_getD_data (cfg : LRCConfig) (data : List Nat) (i : Nat) (h : i < cfg.k) :
    (encodeLRC cfg data).getD i [] = dataFragment data (ceilDiv data.length cfg.k) i := by
  unfold encodeLRC
  rw [getD_append_left _ _ _ _ (by simp [dataFragmentsOf] ; omega)]
  rw [getD_append_left _ _ _ _ (by simp [dataFragmentsOf] ; omega)]
  unfold dataFragmentsOf
  exact getD_range_map _ _ _ _ h

theorem encodeLRC_getD_local (cfg : LRCConfig) (data : List Nat) (g : Nat)
    (h : g < numGroups cfg) :
    (encodeLRC cfg data).getD (cfg.k + g) [] = xorAll (ceilDiv data.length cfg.k)
      (((dataFragmentsOf data cfg.k).drop (g * cfg.gs)).take cfg.gs) := by
  unfold encodeLRC
  rw [List.append_assoc]
  have hlen : (dataFragmentsOf data cfg.k).length = cfg.k := length_dataFragmentsOf ..
  rw [getD_append_right _ _ _ _ (by omega)]
  rw [hlen, Nat.add_sub_cancel_left]
  rw [getD_append_left _ _ _ _ (by simpa using h)]
  exact getD_range_map _ _ _ _ h

theorem encodeLRC_getD_global (cfg : LRCConfig) (data : List Nat) (j : Nat)
    (h : j < cfg.gp) :
    (encodeLRC cfg data).getD (cfg.k + numGroups cfg + j) []
      = List.replicate (ceilDiv data.length cfg.k) 0 := by
  unfold encodeLRC
  rw [List.append_assoc]
  have hlen : (dataFragmentsOf data cfg.k).length = cfg.k := length_dataFragmentsOf ..
  rw [getD_append_right _ _ _ _ (by omega)]
  rw [hlen]
  have : cfg.k + numGroups cfg + j - cfg.k = numGroups cfg + j := by omega
  rw [this, getD_append_right _ _ _ _ (by simp)]
  simp only [List.length_map, List.length_range, Nat.add_sub_cancel_left]
  rw [getD_range_map _ _ _ _ h]
  unfold rscParity
  rw [List.drop_replicate, List.take_replicate]
  congr 1
  have h1 : j * ceilDiv data.length cfg.k + ceilDiv data.length cfg.k
      ≤ cfg.gp * ceilDiv data.length cfg.k := by
    have : j + 1 ≤ cfg.gp := h
    calc j * ceilDiv data.length cfg.k + ceilDiv data.length cfg.k
        = (j + 1) * ceilDiv data.length cfg.k := by ring
      _ ≤ cfg.gp * ceilDiv data.length cfg.k := Nat.mul_le_mul_right _ this
  omega

theorem length_mem_encodeLRC (cfg : LRCConfig) (data : List Nat) (f : List Nat)
    (hf : f ∈ encodeLRC cfg data) : f.length = ceilDiv data.length cfg.k := by
  unfold encodeLRC at hf
  rcases List.mem_append.1 hf with hf1 | hf2
  · rcases List.mem_append.1 hf1 with hd | hl
    · unfold dataFragmentsOf at hd
      rcases List.mem_map.1 hd with ⟨i, _, rfl⟩
      exact length_dataFragment ..
    · rcases List.mem_map.1 hl with ⟨g, _, rfl⟩
      exact length_xorAll ..
  · rcases List.mem_map.1 hf2 with ⟨j, hj, rfl⟩
    unfold rscParity
    rw [List.drop_replicate, List.take_replicate, List.length_replicate]
    have hjlt : j < cfg.gp := List.mem_range.1 hj
    have h1 : j * ceilDiv data.length cfg.k + ceilDiv data.length cfg.k
        ≤ cfg.gp * ceilDiv data.length cfg.k := by
      calc j * ceilDiv data.length cfg.k + ceilDiv data.length cfg.k
          = (j + 1) * ceilDiv data.length cfg.k := by ring
        _ ≤ cfg.gp * ceilDiv data.length cfg.k := Nat.mul_le_mul_right _ hjlt
    omega

/-! Masked fragment lists. -/

theorem length_maskFragments (frags : List (List Nat)) (failed : List Nat) :
    (maskFragments frags failed).length = frags.length := by
  simp [maskFragments]

theorem maskFragments_getD (frags : List (List Nat)) (failed : List Nat) (i : Nat)
    (h : i < frags.length) :
    (maskFragments frags failed).getD i none
      = if i ∈ failed then none else some (frags.getD i []) := by
  unfold maskFragments
  exact getD_range_map _ _ _ _ h

theorem maskFragments_getD_oob (frags : List (List Nat)) (failed : List Nat) (i : Nat)
    (h : frags.length ≤ i) : (maskFragments frags failed).getD i none = none := by
  unfold maskFragments
  exact getD_range_map_oob _ _ _ _ h

theorem maskFragments_getD_present (frags : List (List Nat)) (failed : List Nat) (i : Nat)
    (h : i < frags.length) (hi : i ∉ failed) :
    (maskFragments frags failed).getD i none = some (frags.getD i []) := by
  rw [maskFragments_getD _ _ _ h, if_neg hi]

theorem maskFragments_getD_failed (frags : List (List Nat)) (failed : List Nat) (i : Nat)
    (h : i < frags.length) (hi : i ∈ failed) :
    (maskFragments frags failed).getD i none = none := by
  rw [maskFragments_getD _ _ _ h, if_pos hi]

theorem failedPositions_eq (frags : List (List Nat)) (failed : List Nat) :
    (List.range (maskFragments frags failed).length).filter
        (fun i => (maskFragments frags failed).getD i none = none)
      = (List.range frags.length).filter (fun i => i ∈ failed) := by
  rw [length_maskFragments]
  apply List.filter_congr
  intro i hi
  have hlt : i < frags.length := List.mem_range.1 hi
  rw [maskFragments_getD _ _ _ hlt]
  by_cases hf : i ∈ failed <;> simp [hf]

theorem filter_range_mem_nil (n : Nat) :
    (List.range n).filter (fun i => i ∈ ([] : List Nat)) = [] := by
  simp

theorem filter_range_mem_single (n d : Nat) (h : d < n) :
    (List.range n).filter (fun i => i ∈ [d]) = [d] := by
  induction n with
  | zero => omega
  | succ m ih =>
    rw [List.range_succ, List.filter_append]
    rcases Nat.lt_or_ge d m with hdm | hdm
    · rw [ih hdm]
      have : List.filter (fun i => decide (i ∈ [d])) [m] = [] := by
        simp only [List.filter, List.mem_singleton]
        have : m ≠ d := by omega
        simp [this]
      rw [this, List.append_nil]
    · have hd : d = m := by omega
      subst hd
      have h1 : List.filter (fun i => decide (i ∈ [d])) (List.range d) = [] := by
        apply List.filter_eq_nil_iff.2
        intro a ha
        have : a < d := List.mem_range.1 ha
        simp only [List.mem_singleton]
        simp
        omega
      rw [h1, List.nil_append]
      simp

theorem filter_range_mem_pair (n d p : Nat) (hdp : d < p) (h : p < n) :
    (List.range n).filter (fun i => i ∈ [d, p]) = [d, p] := by
  induction n with
  | zero => omega
  | succ m ih =>
    rw [List.range_succ, List.filter_append]
    rcases Nat.lt_or_ge p m with hpm | hpm
    · rw [ih hpm]
      have : List.filter (fun i => decide (i ∈ [d, p])) [m] = [] := by
        have h1 : m ≠ d := by omega
        have h2 : m ≠ p := by omega
        simp only [List.filter, List.mem_cons, List.mem_singleton]
        simp [h1, h2]
      rw [this, List.append_nil]
    · have hp : p = m := by omega
      subst hp
      have h1 : List.filter (fun i => decide (i ∈ [d, p])) (List.range p)
          = List.filter (fun i => i ∈ [d]) (List.range p) := by
        apply List.filter_congr
        intro a ha
        have : a < p := List.mem_range.1 ha
        have : a ≠ p := by omega
        simp [this]
      rw [h1, filter_range_mem_single _ _ hdp]
      simp

theorem filter_range_mem_length (n : Nat) (failed : List Nat) (hnd : failed.Nodup)
    (hlt : ∀ x ∈ failed, x < n) :
    ((List.range n).filter (fun i => i ∈ failed)).length = failed.length := by
  have hperm : List.Perm ((List.range n).filter (fun i => i ∈ failed)) failed := by
    apply List.perm_of_nodup_nodup_toFinset_eq
    · exact (List.nodup_range n).filter _
    · exact hnd
    · ext x
      simp only [List.mem_toFinset, List.mem_filter, List.mem_range, decide_eq_true_eq]
      constructor
      · intro hx
        exact hx.2
      · intro hx
        exact ⟨hlt x hx, hx⟩
  exact hperm.length_eq


/-! Local repair of a single missing data fragment. -/

theorem dataFragmentsOf_getD (data : List Nat) (k i : Nat) (h : i < k) :
    (dataFragmentsOf data k).getD i [] = dataFragment data (ceilDiv data.length k) i := by
  unfold dataFragmentsOf
  exact getD_range_map _ _ _ _ h

theorem div_mul_le_self' (d gs : Nat) : d / gs * gs ≤ d := Nat.div_mul_le_self d gs

theorem lt_div_mul_add (d gs : Nat) (h : 0 < gs) : d < d / gs * gs + gs := by
  have h1 := Nat.div_add_mod d gs
  have h2 := Nat.mod_lt d h
  have h3 : d / gs * gs = gs * (d / gs) := Nat.mul_comm ..
  omega

theorem div_lt_numGroups (cfg : LRCConfig) (d : Nat) (hgs : 0 < cfg.gs) (hd : d < cfg.k) :
    d / cfg.gs < numGroups cfg := by
  have hk : cfg.k ≤ numGroups cfg * cfg.gs := ceilDiv_mul_le cfg.k cfg.gs hgs
  have : d < numGroups cfg * cfg.gs := by omega
  exact Nat.div_lt_of_lt_mul (by rwa [Nat.mul_comm] at this)

theorem length_filter_ne (l : List Nat) (d : Nat) (hnd : l.Nodup) (hd : d ∈ l) :
    (l.filter (fun j => decide (j ≠ d))).length = l.length - 1 := by
  induction l with
  | nil => simp at hd
  | cons a t ih =>
    rcases List.mem_cons.1 hd with rfl | hdt
    · rw [List.filter_cons_of_neg (by simp)]
      have hft : t.filter (fun j => decide (j ≠ d)) = t := by
        apply List.filter_eq_self.2
        intro x hx
        have hxd : x ≠ d := by
          intro hxa
          exact (List.nodup_cons.1 hnd).1 (by rwa [hxa] at hx)
        simp [hxd]
      rw [hft]
      simp
    · have had : a ≠ d := by
        intro h
        refine (List.nodup_cons.1 hnd).1 ?_
        rw [h]
        exact hdt
      rw [List.filter_cons_of_pos (by simp [had])]
      have hpos : 0 < t.length := List.length_pos.2 (List.ne_nil_of_mem hdt)
      simp only [List.length_cons]
      rw [ih (List.nodup_cons.1 hnd).2 hdt]
      omega

theorem foldl_congr_mem {α β : Type} (l : List α) (f g : β → α → β)
    (h : ∀ x ∈ l, ∀ v, f v x = g v x) : ∀ b, l.foldl f b = l.foldl g b := by
  induction l with
  | nil =>
    intro b
    rfl
  | cons a t ih =>
    intro b
    simp only [List.foldl_cons]
    rw [h a (by simp)]
    exact ih (fun x hx v => h x (by simp [hx]) v) _

theorem local_repair_single (cfg : LRCConfig) (payload : List Nat) (d : Nat)
    (hgs : 0 < cfg.gs) (hd : d < cfg.k) :
    local_repair cfg (ceilDiv payload.length cfg.k)
      (maskFragments (encodeLRC cfg payload) [d]) d
      = some (dataFragment payload (ceilDiv payload.length cfg.k) d) := by
  set fs := ceilDiv payload.length cfg.k with hfs
  set frags := maskFragments (encodeLRC cfg payload) [d] with hfrags
  set gid := d / cfg.gs with hgid
  set start := gid * cfg.gs with hstart
  set e := min (start + cfg.gs) cfg.k with he
  clear_value fs frags gid start e
  have hlen : frags.length = cfg.k + numGroups cfg + cfg.gp := by
    rw [hfrags, length_maskFragments, length_encodeLRC]
  have hgidlt : gid < numGroups cfg := by
    rw [hgid]
    exact div_lt_numGroups cfg d hgs hd
  have hstartd : start ≤ d := by
    rw [hstart, hgid]
    exact div_mul_le_self' d cfg.gs
  have hde : d < e := by
    have h1 := lt_div_mul_add d cfg.gs hgs
    rw [he, hstart, hgid]
    omega
  have hek : e ≤ cfg.k := by
    rw [he]
    exact Nat.min_le_right ..
  have hb1 : cfg.k + gid < (encodeLRC cfg payload).length := by
    rw [length_encodeLRC]
    omega
  have hb2 : cfg.k + gid ∉ [d] := by
    simp only [List.mem_singleton]
    omega
  have hlp : frags.getD (cfg.k + gid) none
      = some (xorAll fs (((dataFragmentsOf payload cfg.k).drop (gid * cfg.gs)).take cfg.gs)) := by
    rw [hfrags, maskFragments_getD_present (encodeLRC cfg payload) [d] (cfg.k + gid) hb1 hb2]
    rw [encodeLRC_getD_local cfg payload gid hgidlt, hfs]
  have hgdata : ∀ i, i < cfg.k → i ≠ d →
      frags.getD i none = some (dataFragment payload fs i) := by
    intro i hik hid
    have hc1 : i < (encodeLRC cfg payload).length := by
      rw [length_encodeLRC]
      omega
    rw [hfrags, maskFragments_getD_present (encodeLRC cfg payload) [d] i hc1 (by simp [hid])]
    rw [encodeLRC_getD_data cfg payload i hik, hfs]
  have hgd : frags.getD d none = none := by
    have hc2 : d < (encodeLRC cfg payload).length := by
      rw [length_encodeLRC]
      omega
    rw [hfrags, maskFragments_getD_failed (encodeLRC cfg payload) [d] d hc2 (by simp)]
  simp only [local_repair]
  rw [← hgid, ← hstart, ← he]
  rw [hlp]
  have hfiltr : ((List.range' start (e - start)).filter
        (fun i => (frags.getD i none).isSome ∧ i ≠ d))
      = (List.range' start (e - start)).filter (fun j => decide (j ≠ d)) := by
    apply List.filter_congr
    intro i hi
    have hmem := List.mem_range'_1.1 hi
    have hik : i < cfg.k := by omega
    by_cases hid : i = d
    · subst hid
      simp [hgd]
    · rw [hgdata i hik hid]
      simp [hid]
  rw [hfiltr]
  simp only []
  have hdm : d ∈ List.range' start (e - start) := List.mem_range'_1.2 (by omega)
  have hndr : (List.range' start (e - start)).Nodup := List.nodup_range' _ _
  have hlength : (((List.range' start (e - start)).filter (fun j => decide (j ≠ d))).map
      (fun i => (frags.getD i none).getD [])).length = e - start - 1 := by
    rw [List.length_map, length_filter_ne _ _ hndr hdm, List.length_range']
  rw [if_pos hlength]
  congr 1
  have hfraglen : (dataFragment payload fs d).length = fs := length_dataFragment ..
  conv_rhs => rw [list_eq_range_map_getD 0 (dataFragment payload fs d), hfraglen]
  apply List.map_congr_left
  intro i hi
  have hifs : i < fs := List.mem_range.1 hi
  have hslice : ((dataFragmentsOf payload cfg.k).drop (gid * cfg.gs)).take cfg.gs
      = (List.range' start (e - start)).map (fun j => (dataFragmentsOf payload cfg.k).getD j []) := by
    have hlen2 : (dataFragmentsOf payload cfg.k).length = cfg.k := length_dataFragmentsOf ..
    have htt : ((dataFragmentsOf payload cfg.k).drop (gid * cfg.gs)).take cfg.gs
        = ((dataFragmentsOf payload cfg.k).drop (gid * cfg.gs)).take (e - start) := by
      rw [List.take_eq_take]
      simp only [List.length_drop, hlen2]
      omega
    rw [htt, ← hstart]
    exact slice_eq_range'_map [] (e - start) start (dataFragmentsOf payload cfg.k)
      (by rw [length_dataFragmentsOf] ; omega)
  rw [hslice]
  have hxba : (xorAll fs ((List.range' start (e - start)).map
      (fun j => (dataFragmentsOf payload cfg.k).getD j []))).getD i 0
      = (List.range' start (e - start)).foldl
        (fun v j => v ^^^ ((dataFragmentsOf payload cfg.k).getD j []).getD i 0) 0 := by
    unfold xorAll
    rw [getD_range_map _ _ _ _ hifs, List.foldl_map]
  rw [hxba]
  have hmapav : (((List.range' start (e - start)).filter (fun j => decide (j ≠ d))).map
        (fun j => (frags.getD j none).getD [])).foldl (fun v f => v ^^^ f.getD i 0)
        ((List.range' start (e - start)).foldl
          (fun v j => v ^^^ ((dataFragmentsOf payload cfg.k).getD j []).getD i 0) 0)
      = ((List.range' start (e - start)).filter (fun j => decide (j ≠ d))).foldl
        (fun v j => v ^^^ ((dataFragmentsOf payload cfg.k).getD j []).getD i 0)
        ((List.range' start (e - start)).foldl
          (fun v j => v ^^^ ((dataFragmentsOf payload cfg.k).getD j []).getD i 0) 0) := by
    rw [List.foldl_map]
    apply foldl_congr_mem
    intro x hx v
    have hxr := List.mem_filter.1 hx
    have hxd : x ≠ d := by simpa using hxr.2
    have hxm := List.mem_range'_1.1 hxr.1
    have hxk : x < cfg.k := by omega
    rw [hgdata x hxk hxd, dataFragmentsOf_getD payload cfg.k x hxk, ← hfs]
    rfl
  rw [hmapav]
  rw [xorFold_cancel (fun j => ((dataFragmentsOf payload cfg.k).getD j []).getD i 0)
    (List.range' start (e - start)) d hndr hdm]
  rw [dataFragmentsOf_getD payload cfg.k d hd, ← hfs]


/-! Auxiliary lemmas for global repair. -/

theorem getD_replicate (n i : Nat) : (List.replicate n (0 : Nat)).getD i 0 = 0 := by
  rcases Nat.lt_or_ge i n with h | h
  · rw [List.getD_eq_getElem _ _ (by simpa using h)]
    exact List.getElem_replicate ..
  · simp [List.getD, List.getElem?_eq_none, h]

theorem flatten_const_replicate (fs : Nat) :
    ∀ n, ((List.range n).map (fun _ => List.replicate fs (0 : Nat))).flatten
      = List.replicate (n * fs) 0 := by
  intro n
  induction n with
  | zero => simp
  | succ m ih =>
    rw [List.range_succ, List.map_append, List.flatten_append, ih]
    simp only [List.map_cons, List.map_nil, List.flatten_cons, List.flatten_nil, List.append_nil]
    rw [← List.replicate_add]
    congr 1
    ring

theorem length_chunk_flatten (D : List Nat) (fs : Nat) (f : Nat → Nat → Nat) :
    ((D.map (fun p => (List.range fs).map (f p))).flatten).length = D.length * fs := by
  rw [flatten_length_uniform _ fs]
  · simp
  · intro x hx
    rcases List.mem_map.1 hx with ⟨p, _, rfl⟩
    simp

theorem mem_chunk_flatten (D : List Nat) (fs p b : Nat) (hp : p ∈ D) (hb : b < fs)
    (f : Nat → Nat → Nat) :
    f p b ∈ (D.map (fun q => (List.range fs).map (f q))).flatten := by
  rw [List.mem_flatten]
  refine ⟨(List.range fs).map (f p), List.mem_map.2 ⟨p, hp, rfl⟩, ?_⟩
  exact List.mem_map.2 ⟨b, List.mem_range.2 hb, rfl⟩

theorem div_add_mod_decomp (i fs : Nat) (h : 0 < fs) : i = i / fs * fs + i % fs := by
  have h1 := Nat.div_add_mod i fs
  have h2 : i / fs * fs = fs * (i / fs) := Nat.mul_comm ..
  omega

theorem div_lt_of_lt_mul' (i k fs : Nat) (h : i < k * fs) : i / fs < k := by
  exact Nat.div_lt_of_lt_mul (by rwa [Nat.mul_comm] at h)

/-! Characterization of global-repair internals on a masked encoding. -/

theorem dataErasuresOf_eq (cfg : LRCConfig) (payload : List Nat) (failed : List Nat) :
    dataErasuresOf cfg (maskFragments (encodeLRC cfg payload) failed)
      = (List.range cfg.k).filter (fun i => i ∈ failed) := by
  unfold dataErasuresOf
  apply List.filter_congr
  intro i hi
  have hik : i < cfg.k := List.mem_range.1 hi
  rw [maskFragments_getD _ _ _ (by rw [length_encodeLRC] ; omega)]
  by_cases hf : i ∈ failed <;> simp [hf]

theorem availableDataOf_eq (cfg : LRCConfig) (payload : List Nat) (failed : List Nat) :
    availableDataOf cfg (ceilDiv payload.length cfg.k)
        (maskFragments (encodeLRC cfg payload) failed)
      = (List.range cfg.k).map (fun i => if i ∈ failed then
          List.replicate (ceilDiv payload.length cfg.k) 0
        else dataFragment payload (ceilDiv payload.length cfg.k) i) := by
  unfold availableDataOf
  apply List.map_congr_left
  intro i hi
  have hik : i < cfg.k := List.mem_range.1 hi
  rw [maskFragments_getD _ _ _ (by rw [length_encodeLRC] ; omega)]
  by_cases hf : i ∈ failed
  · rw [if_pos hf, if_pos hf]
  · rw [if_neg hf, if_neg hf]
    simp only []
    exact encodeLRC_getD_data cfg payload i hik

theorem globalErasuresOf_eq (cfg : LRCConfig) (payload : List Nat) (failed : List Nat)
    (hlp1 : cfg.lp = 1) :
    globalErasuresOf cfg (maskFragments (encodeLRC cfg payload) failed)
      = (List.range cfg.gp).filter (fun j => cfg.k + numGroups cfg + j ∈ failed) := by
  unfold globalErasuresOf
  apply List.filter_congr
  intro j hj
  have hjgp : j < cfg.gp := List.mem_range.1 hj
  rw [hlp1, Nat.mul_one]
  rw [maskFragments_getD _ _ _ (by rw [length_encodeLRC] ; omega)]
  by_cases hf : cfg.k + numGroups cfg + j ∈ failed <;> simp [hf]

theorem availableGlobalOf_eq (cfg : LRCConfig) (payload : List Nat) (failed : List Nat)
    (hlp1 : cfg.lp = 1) :
    availableGlobalOf cfg (ceilDiv payload.length cfg.k)
        (maskFragments (encodeLRC cfg payload) failed)
      = (List.range cfg.gp).map (fun _ => List.replicate (ceilDiv payload.length cfg.k) 0) := by
  unfold availableGlobalOf
  apply List.map_congr_left
  intro j hj
  have hjgp : j < cfg.gp := List.mem_range.1 hj
  rw [hlp1, Nat.mul_one]
  rw [maskFragments_getD _ _ _ (by rw [length_encodeLRC] ; omega)]
  by_cases hf : cfg.k + numGroups cfg + j ∈ failed
  · rw [if_pos hf]
  · rw [if_neg hf]
    simp only []
    exact encodeLRC_getD_global cfg payload j hjgp

theorem availableDataOf_flatten_getD (cfg : LRCConfig) (payload : List Nat)
    (failed : List Nat) (q b : Nat) (hq : q < cfg.k)
    (hb : b < ceilDiv payload.length cfg.k) :
    ((availableDataOf cfg (ceilDiv payload.length cfg.k)
        (maskFragments (encodeLRC cfg payload) failed)).flatten).getD
          (q * ceilDiv payload.length cfg.k + b) 0
      = if q ∈ failed then 0 else (dataFragment payload (ceilDiv payload.length cfg.k) q).getD b 0 := by
  rw [availableDataOf_eq]
  rw [flatten_getD_uniform _ (ceilDiv payload.length cfg.k) ?hu q b (by simpa using hq) hb]
  case hu =>
    intro x hx
    rcases List.mem_map.1 hx with ⟨i, _, rfl⟩
    by_cases hf : i ∈ failed
    · simp [hf]
    · simp [hf, length_dataFragment]
  rw [getD_range_map _ _ _ _ hq]
  by_cases hf : q ∈ failed
  · simp [hf, getD_replicate]
  · simp [hf]

theorem availableDataOf_flatten_length (cfg : LRCConfig) (payload : List Nat)
    (failed : List Nat) :
    ((availableDataOf cfg (ceilDiv payload.length cfg.k)
        (maskFragments (encodeLRC cfg payload) failed)).flatten).length
      = cfg.k * ceilDiv payload.length cfg.k := by
  rw [availableDataOf_eq, flatten_length_uniform _ (ceilDiv payload.length cfg.k)]
  · simp
  · intro x hx
    rcases List.mem_map.1 hx with ⟨i, _, rfl⟩
    by_cases hf : i ∈ failed
    · simp [hf]
    · simp [hf, length_dataFragment]

theorem dataBytes_length (payload : List Nat) (k : Nat) :
    ((dataFragmentsOf payload k).flatten).length = k * ceilDiv payload.length k := by
  rw [flatten_length_uniform _ (ceilDiv payload.length k)]
  · rw [length_dataFragmentsOf]
  · intro x hx
    rcases List.mem_map.1 hx with ⟨i, _, rfl⟩
    exact length_dataFragment ..

theorem dataBytes_getD (payload : List Nat) (k q b : Nat) (hq : q < k)
    (hb : b < ceilDiv payload.length k) :
    ((dataFragmentsOf payload k).flatten).getD (q * ceilDiv payload.length k + b) 0
      = (dataFragment payload (ceilDiv payload.length k) q).getD b 0 := by
  rw [flatten_getD_uniform _ (ceilDiv payload.length k) ?hu q b
    (by rw [length_dataFragmentsOf] ; exact hq) hb]
  case hu =>
    intro x hx
    rcases List.mem_map.1 hx with ⟨i, _, rfl⟩
    exact length_dataFragment ..
  rw [dataFragmentsOf_getD _ _ _ hq]

theorem erasuresOf_length_le (cfg : LRCConfig) (payload : List Nat) (failed : List Nat)
    (hlp1 : cfg.lp = 1)
    (hcap : ((List.range cfg.k).filter (fun i => i ∈ failed)).length
        + ((List.range cfg.gp).filter (fun j => cfg.k + numGroups cfg + j ∈ failed)).length
        ≤ cfg.gp) :
    (erasuresOf cfg (ceilDiv payload.length cfg.k)
        (maskFragments (encodeLRC cfg payload) failed)).length
      ≤ cfg.gp * ceilDiv payload.length cfg.k := by
  unfold erasuresOf
  rw [List.length_append, length_chunk_flatten, length_chunk_flatten]
  rw [dataErasuresOf_eq, globalErasuresOf_eq _ _ _ hlp1]
  calc ((List.range cfg.k).filter (fun i => i ∈ failed)).length * ceilDiv payload.length cfg.k
        + ((List.range cfg.gp).filter
            (fun j => cfg.k + numGroups cfg + j ∈ failed)).length * ceilDiv payload.length cfg.k
      = (((List.range cfg.k).filter (fun i => i ∈ failed)).length
        + ((List.range cfg.gp).filter
            (fun j => cfg.k + numGroups cfg + j ∈ failed)).length) * ceilDiv payload.length cfg.k := by
        ring
    _ ≤ cfg.gp * ceilDiv payload.length cfg.k := Nat.mul_le_mul_right _ hcap

theorem mem_erasuresOf_data (cfg : LRCConfig) (payload : List Nat) (failed : List Nat)
    (q b : Nat) (hq : q < cfg.k) (hb : b < ceilDiv payload.length cfg.k)
    (hqf : q ∈ failed) :
    q * ceilDiv payload.length cfg.k + b ∈ erasuresOf cfg (ceilDiv payload.length cfg.k)
      (maskFragments (encodeLRC cfg payload) failed) := by
  unfold erasuresOf
  apply List.mem_append_left
  have hqD : q ∈ dataErasuresOf cfg (maskFragments (encodeLRC cfg payload) failed) := by
    rw [dataErasuresOf_eq]
    exact List.mem_filter.2 ⟨List.mem_range.2 hq, by simpa using hqf⟩
  exact mem_chunk_flatten _ _ q b hqD hb (fun p c => p * ceilDiv payload.length cfg.k + c)

theorem rscDecode_masked (cfg : LRCConfig) (payload : List Nat) (failed : List Nat)
    (hk : 0 < cfg.k) (hpay : 0 < payload.length) (hlp1 : cfg.lp = 1)
    (hcap : ((List.range cfg.k).filter (fun i => i ∈ failed)).length
        + ((List.range cfg.gp).filter (fun j => cfg.k + numGroups cfg + j ∈ failed)).length
        ≤ cfg.gp) :
    rscDecode (cfg.gp * ceilDiv payload.length cfg.k)
      ((dataFragmentsOf payload cfg.k).flatten
        ++ rscParity (cfg.gp * ceilDiv payload.length cfg.k) (dataFragmentsOf payload cfg.k).flatten)
      ((availableDataOf cfg (ceilDiv payload.length cfg.k)
          (maskFragments (encodeLRC cfg payload) failed)
        ++ availableGlobalOf cfg (ceilDiv payload.length cfg.k)
          (maskFragments (encodeLRC cfg payload) failed)).flatten)
      (erasuresOf cfg (ceilDiv payload.length cfg.k) (maskFragments (encodeLRC cfg payload) failed))
      = some (dataFragmentsOf payload cfg.k).flatten := by
  have hfspos : 0 < ceilDiv payload.length cfg.k := ceilDiv_pos _ _ hpay hk
  have hADlen := availableDataOf_flatten_length cfg payload failed
  have hAG : (availableGlobalOf cfg (ceilDiv payload.length cfg.k)
        (maskFragments (encodeLRC cfg payload) failed)).flatten
      = List.replicate (cfg.gp * ceilDiv payload.length cfg.k) 0 := by
    rw [availableGlobalOf_eq _ _ _ hlp1, flatten_const_replicate]
  have hDBlen := dataBytes_length payload cfg.k
  have hrec : ((availableDataOf cfg (ceilDiv payload.length cfg.k)
          (maskFragments (encodeLRC cfg payload) failed)
        ++ availableGlobalOf cfg (ceilDiv payload.length cfg.k)
          (maskFragments (encodeLRC cfg payload) failed)).flatten)
      = (availableDataOf cfg (ceilDiv payload.length cfg.k)
          (maskFragments (encodeLRC cfg payload) failed)).flatten
        ++ List.replicate (cfg.gp * ceilDiv payload.length cfg.k) 0 := by
    rw [List.flatten_append, hAG]
  have hreclen : ((availableDataOf cfg (ceilDiv payload.length cfg.k)
          (maskFragments (encodeLRC cfg payload) failed)
        ++ availableGlobalOf cfg (ceilDiv payload.length cfg.k)
          (maskFragments (encodeLRC cfg payload) failed)).flatten).length
      = cfg.k * ceilDiv payload.length cfg.k + cfg.gp * ceilDiv payload.length cfg.k := by
    rw [hrec, List.length_append, hADlen, List.length_replicate]
  have htclen : ((dataFragmentsOf payload cfg.k).flatten
        ++ rscParity (cfg.gp * ceilDiv payload.length cfg.k)
          (dataFragmentsOf payload cfg.k).flatten).length
      = cfg.k * ceilDiv payload.length cfg.k + cfg.gp * ceilDiv payload.length cfg.k := by
    unfold rscParity
    rw [List.length_append, hDBlen, List.length_replicate]
  unfold rscDecode
  rw [if_neg (by
    push_neg
    exact erasuresOf_length_le cfg payload failed hlp1 hcap)]
  rw [if_pos ?hagree]
  case hagree =>
    constructor
    · rw [hreclen, htclen]
    · intro i hi hni
      rw [hreclen] at hi
      have hilt : i < cfg.k * ceilDiv payload.length cfg.k
          + cfg.gp * ceilDiv payload.length cfg.k := List.mem_range.1 hi
      rcases Nat.lt_or_ge i (cfg.k * ceilDiv payload.length cfg.k) with hid | hig
      · have hq : i / ceilDiv payload.length cfg.k < cfg.k := div_lt_of_lt_mul' _ _ _ hid
        have hb : i % ceilDiv payload.length cfg.k < ceilDiv payload.length cfg.k :=
          Nat.mod_lt _ hfspos
        have hdecomp : i = i / ceilDiv payload.length cfg.k * ceilDiv payload.length cfg.k
            + i % ceilDiv payload.length cfg.k := div_add_mod_decomp i _ hfspos
        have hqnf : i / ceilDiv payload.length cfg.k ∉ failed := by
          intro hqf
          apply hni
          rw [hdecomp]
          exact mem_erasuresOf_data cfg payload failed _ _ hq hb hqf
        rw [hrec, getD_append_left _ _ _ _ (by rw [hADlen] ; exact hid),
          getD_append_left _ _ _ _ (by rw [hDBlen] ; exact hid)]
        rw [hdecomp, availableDataOf_flatten_getD cfg payload failed _ _ hq hb,
          if_neg hqnf, dataBytes_getD payload cfg.k _ _ hq hb]
      · rw [hrec, getD_append_right _ _ _ _ (by rw [hADlen] ; exact hig)]
        unfold rscParity
        rw [getD_append_right _ _ _ _ (by rw [hDBlen] ; exact hig)]
        rw [getD_replicate, getD_replicate]
  rw [htclen]
  have hsub : cfg.k * ceilDiv payload.length cfg.k + cfg.gp * ceilDiv payload.length cfg.k
      - cfg.gp * ceilDiv payload.length cfg.k = cfg.k * ceilDiv payload.length cfg.k := by
    omega
  rw [hsub]
  congr 1
  rw [← hDBlen]
  exact List.take_left ..

theorem global_repair_within (cfg : LRCConfig) (payload : List Nat) (failed : List Nat)
    (hk : 0 < cfg.k) (hpay : 0 < payload.length) (hlp1 : cfg.lp = 1)
    (hcap : ((List.range cfg.k).filter (fun i => i ∈ failed)).length
        + ((List.range cfg.gp).filter (fun j => cfg.k + numGroups cfg + j ∈ failed)).length
        ≤ cfg.gp) :
    global_repair cfg payload (maskFragments (encodeLRC cfg payload) failed)
      = some (stripZeros payload) := by
  have htot : totalFragments cfg ≤ (maskFragments (encodeLRC cfg payload) failed).length := by
    rw [length_maskFragments, length_encodeLRC]
    unfold totalFragments
    rw [hlp1]
    omega
  simp only [global_repair]
  rw [if_pos htot]
  by_cases hz : dataErasuresOf cfg (maskFragments (encodeLRC cfg payload) failed) = []
      ∧ globalErasuresOf cfg (maskFragments (encodeLRC cfg payload) failed) = []
  · rw [if_pos hz]
    have hne : ∀ i ∈ List.range cfg.k, i ∉ failed := by
      intro i hi hmem
      have hin : i ∈ (List.range cfg.k).filter (fun i => i ∈ failed) :=
        List.mem_filter.2 ⟨hi, by simpa using hmem⟩
      rw [← dataErasuresOf_eq cfg payload failed, hz.1] at hin
      simp at hin
    have hAD : availableDataOf cfg (ceilDiv payload.length cfg.k)
        (maskFragments (encodeLRC cfg payload) failed) = dataFragmentsOf payload cfg.k := by
      rw [availableDataOf_eq]
      unfold dataFragmentsOf
      apply List.map_congr_left
      intro i hi
      rw [if_neg (hne i hi)]
    rw [hAD, stripZeros_flatten_frags _ _ hk]
  · rw [if_neg hz]
    rw [rscDecode_masked cfg payload failed hk hpay hlp1 hcap]
    simp only []
    rw [take_slices_flatten]
    rw [List.take_of_length_le (by rw [dataBytes_length])]
    rw [stripZeros_flatten_frags _ _ hk]

theorem global_repair_overCapacity (cfg : LRCConfig) (payload : List Nat) (failed : List Nat)
    (hk : 0 < cfg.k) (hpay : 0 < payload.length) (hlp1 : cfg.lp = 1)
    (hover : cfg.gp < ((List.range cfg.k).filter (fun i => i ∈ failed)).length) :
    global_repair cfg payload (maskFragments (encodeLRC cfg payload) failed)
      = some (stripZeros ((List.range cfg.k).map (fun i => if i ∈ failed then
          List.replicate (ceilDiv payload.length cfg.k) 0
        else dataFragment payload (ceilDiv payload.length cfg.k) i)).flatten) := by
  have hfspos : 0 < ceilDiv payload.length cfg.k := ceilDiv_pos _ _ hpay hk
  have htot : totalFragments cfg ≤ (maskFragments (encodeLRC cfg payload) failed).length := by
    rw [length_maskFragments, length_encodeLRC]
    unfold totalFragments
    rw [hlp1]
    omega
  have hDne : dataErasuresOf cfg (maskFragments (encodeLRC cfg payload) failed) ≠ [] := by
    rw [dataErasuresOf_eq]
    intro hnil
    rw [hnil] at hover
    simp at hover
  have heraLen : cfg.gp * ceilDiv payload.length cfg.k
      < (erasuresOf cfg (ceilDiv payload.length cfg.k)
          (maskFragments (encodeLRC cfg payload) failed)).length := by
    unfold erasuresOf
    rw [List.length_append, length_chunk_flatten, length_chunk_flatten]
    rw [dataErasuresOf_eq]
    have h1 : (cfg.gp + 1) * ceilDiv payload.length cfg.k
        ≤ ((List.range cfg.k).filter (fun i => i ∈ failed)).length
          * ceilDiv payload.length cfg.k := Nat.mul_le_mul_right _ hover
    have h2 : cfg.gp * ceilDiv payload.length cfg.k + ceilDiv payload.length cfg.k
        = (cfg.gp + 1) * ceilDiv payload.length cfg.k := by ring
    omega
  simp only [global_repair]
  rw [if_pos htot]
  rw [if_neg (by
    intro hand
    exact hDne hand.1)]
  have hdec : rscDecode (cfg.gp * ceilDiv payload.length cfg.k)
      ((dataFragmentsOf payload cfg.k).flatten
        ++ rscParity (cfg.gp * ceilDiv payload.length cfg.k)
          (dataFragmentsOf payload cfg.k).flatten)
      ((availableDataOf cfg (ceilDiv payload.length cfg.k)
          (maskFragments (encodeLRC cfg payload) failed)
        ++ availableGlobalOf cfg (ceilDiv payload.length cfg.k)
          (maskFragments (encodeLRC cfg payload) failed)).flatten)
      (erasuresOf cfg (ceilDiv payload.length cfg.k)
        (maskFragments (encodeLRC cfg payload) failed)) = none := by
    unfold rscDecode
    rw [if_pos heraLen]
  rw [hdec]
  simp only []
  rw [availableDataOf_eq]

/-! Branch analysis of Simulator._reconstruct_lrc. -/

theorem reconstructLRC_empty (cfg : LRCConfig) (payload : List Nat)
    (hk : 0 < cfg.k) (hpay : 0 < payload.length) (hlp1 : cfg.lp = 1) :
    reconstructLRC cfg payload []
      = ⟨some (stripZeros payload), cfg.k + numGroups cfg + cfg.gp, false, Strategy.default⟩ := by
  simp only [reconstructLRC]
  rw [failedPositions_eq, length_encodeLRC, filter_range_mem_nil]
  simp only []
  rw [global_repair_within cfg payload [] hk hpay hlp1 (by simp)]
  rw [length_maskFragments, length_encodeLRC]
  congr 1

theorem reconstructLRC_singleData (cfg : LRCConfig) (payload : List Nat) (d : Nat)
    (hgs : 0 < cfg.gs) (hd : d < cfg.k) :
    reconstructLRC cfg payload [d]
      = ⟨some (stripZeros payload),
          min (d / cfg.gs * cfg.gs + cfg.gs) cfg.k - d / cfg.gs * cfg.gs, true,
          Strategy.localXor⟩ := by
  have hk : 0 < cfg.k := by omega
  have hgidlt : d / cfg.gs < numGroups cfg := div_lt_numGroups cfg d hgs hd
  have hdlt : d < cfg.k + numGroups cfg + cfg.gp := by omega
  simp only [reconstructLRC]
  rw [failedPositions_eq, length_encodeLRC, filter_range_mem_single _ _ hdlt]
  simp only []
  rw [if_pos hd]
  rw [if_pos ?hlpavail]
  case hlpavail =>
    constructor
    · rw [length_maskFragments, length_encodeLRC]
      omega
    · rw [maskFragments_getD_present (encodeLRC cfg payload) [d] (cfg.k + d / cfg.gs)
        (by
          rw [length_encodeLRC]
          have h9 := hgidlt
          omega)
        (by
          intro hmem
          rw [List.mem_singleton] at hmem
          have h9 : cfg.k ≤ cfg.k + d / cfg.gs := Nat.le_add_right ..
          omega)]
      simp
  rw [local_repair_single cfg payload d hgs hd]
  simp only []
  have hout : ((List.range cfg.k).map (fun i => if i = d then
        dataFragment payload (ceilDiv payload.length cfg.k) d
      else ((maskFragments (encodeLRC cfg payload) [d]).getD i none).getD [])).flatten
      = (dataFragmentsOf payload cfg.k).flatten := by
    congr 1
    unfold dataFragmentsOf
    apply List.map_congr_left
    intro i hi
    have hik : i < cfg.k := List.mem_range.1 hi
    by_cases hid : i = d
    · rw [if_pos hid, hid]
    · rw [if_neg hid]
      rw [maskFragments_getD_present (encodeLRC cfg payload) [d] i
        (by rw [length_encodeLRC] ; omega) (by simp [hid])]
      rw [Option.getD_some, encodeLRC_getD_data cfg payload i hik]
  rw [hout, stripZeros_flatten_frags _ _ hk]
  congr 1
  have h8 : d / cfg.gs * cfg.gs ≤ d := div_mul_le_self' d cfg.gs
  omega

theorem reconstructLRC_singleParity (cfg : LRCConfig) (payload : List Nat) (p : Nat)
    (hp : cfg.k ≤ p) (hplt : p < cfg.k + numGroups cfg + cfg.gp) :
    reconstructLRC cfg payload [p]
      = ⟨global_repair cfg payload (maskFragments (encodeLRC cfg payload) [p]),
          cfg.k + cfg.gp, false, Strategy.globalParityFailed⟩ := by
  simp only [reconstructLRC]
  rw [failedPositions_eq, length_encodeLRC, filter_range_mem_single _ _ hplt]
  simp only []
  rw [if_neg (by omega)]

theorem reconstructLRC_multi (cfg : LRCConfig) (payload : List Nat) (failed : List Nat)
    (hnd : failed.Nodup) (hlt : ∀ x ∈ failed, x < cfg.k + numGroups cfg + cfg.gp)
    (h2 : 2 ≤ failed.length) :
    reconstructLRC cfg payload failed
      = ⟨global_repair cfg payload (maskFragments (encodeLRC cfg payload) failed),
          cfg.k + cfg.gp, false, Strategy.globalMultiple⟩ := by
  have hlenf : ((List.range (cfg.k + numGroups cfg + cfg.gp)).filter
      (fun i => i ∈ failed)).length = failed.length :=
    filter_range_mem_length _ _ hnd hlt
  simp only [reconstructLRC]
  rw [failedPositions_eq, length_encodeLRC]
  cases hfp : (List.range (cfg.k + numGroups cfg + cfg.gp)).filter (fun i => i ∈ failed) with
  | nil =>
    rw [hfp] at hlenf
    simp at hlenf
    omega
  | cons a t =>
    cases t with
    | nil =>
      rw [hfp] at hlenf
      simp at hlenf
      omega
    | cons b t2 => rfl

/-! The codeword-rebuilding loop of EncoderRS.decode. -/

theorem rsPieces_length_uniform (total fs : Nat) (fragments : List (Option (List Nat)))
    (hpres : ∀ i, ∀ f, fragments.getD i none = some f → f.length = fs) :
    ∀ x ∈ rsPieces total fs fragments, x.length = fs := by
  intro x hx
  rcases List.mem_map.1 hx with ⟨i, _, rfl⟩
  cases hgi : fragments.getD i none with
  | none => simp [hgi]
  | some f => exact hpres i f hgi

theorem rsPieces_flatten_length (m fs : Nat) (fragments : List (Option (List Nat)))
    (hpres : ∀ i, ∀ f, fragments.getD i none = some f → f.length = fs) :
    ((rsPieces m fs fragments).flatten).length = m * fs := by
  rw [flatten_length_uniform _ fs (rsPieces_length_uniform m fs fragments hpres)]
  simp [rsPieces]

theorem buildCodeword_spec (total fs : Nat) (fragments : List (Option (List Nat)))
    (hpres : ∀ i, ∀ f, fragments.getD i none = some f → f.length = fs) :
    ∀ n, n ≤ total →
      (List.range n).foldl
        (fun acc i => match fragments.getD i none with
          | some f => (sliceAssign acc.1 (i * fs) (i * fs + fs) f, acc.2)
          | none => (acc.1, acc.2 ++ (List.range fs).map (fun j => i * fs + j)))
        (List.replicate (total * fs) 0, [])
      = ((rsPieces n fs fragments).flatten ++ List.replicate ((total - n) * fs) 0,
         rsErasures n fs fragments) := by
  intro n
  induction n with
  | zero =>
    intro _
    simp [rsPieces, rsErasures]
  | succ m ih =>
    intro hle
    rw [List.range_succ, List.foldl_append, ih (by omega)]
    have hAlen : ((rsPieces m fs fragments).flatten).length = m * fs :=
      rsPieces_flatten_length m fs fragments hpres
    simp only [List.foldl_cons, List.foldl_nil]
    cases hgm : fragments.getD m none with
    | some f =>
      have hflen : f.length = fs := hpres m f hgm
      have hpieces : rsPieces (m + 1) fs fragments = rsPieces m fs fragments ++ [f] := by
        unfold rsPieces
        rw [List.range_succ, List.map_append]
        congr 1
        simp only [List.map_cons, List.map_nil, hgm]
      have heras : rsErasures (m + 1) fs fragments = rsErasures m fs fragments := by
        unfold rsErasures
        rw [List.range_succ, List.filter_append]
        have hfm : List.filter (fun i => decide (fragments.getD i none = none)) [m] = [] := by
          rw [List.filter_cons_of_neg]
          · rfl
          · rw [hgm]
            simp
        rw [hfm, List.append_nil]
      simp only []
      rw [hpieces, heras, List.flatten_append]
      simp only [List.flatten_cons, List.flatten_nil, List.append_nil]
      congr 1
      unfold sliceAssign
      rw [← hAlen, List.take_left, List.drop_append, List.drop_replicate]
      simp only [List.append_assoc]
      congr 1
      congr 1
      congr 1
      have h2 : total - m = 1 + (total - (m + 1)) := by omega
      have h1 : (total - m) * fs = fs + (total - (m + 1)) * fs := by
        rw [h2]
        ring
      omega
    | none =>
      have hpieces : rsPieces (m + 1) fs fragments
          = rsPieces m fs fragments ++ [List.replicate fs 0] := by
        unfold rsPieces
        rw [List.range_succ, List.map_append]
        congr 1
        simp only [List.map_cons, List.map_nil, hgm]
      have heras : rsErasures (m + 1) fs fragments
          = rsErasures m fs fragments ++ (List.range fs).map (fun j => m * fs + j) := by
        unfold rsErasures
        rw [List.range_succ, List.filter_append]
        have hfm : List.filter (fun i => decide (fragments.getD i none = none)) [m] = [m] := by
          rw [List.filter_cons_of_pos]
          · rfl
          · rw [hgm]
            simp
        rw [hfm, List.map_append, List.flatten_append]
        simp
      simp only []
      rw [hpieces, heras, List.flatten_append]
      simp only [List.flatten_cons, List.flatten_nil, List.append_nil]
      congr 1
      rw [List.append_assoc]
      congr 1
      have h1 : (total - m) * fs = fs + (total - (m + 1)) * fs := by
        have h2 : total - m = 1 + (total - (m + 1)) := by omega
        rw [h2]
        ring
      rw [h1, List.replicate_add]

theorem buildCodeword_eq (total fs : Nat) (fragments : List (Option (List Nat)))
    (hpres : ∀ i, ∀ f, fragments.getD i none = some f → f.length = fs) :
    buildCodeword total fs fragments
      = ((rsPieces total fs fragments).flatten, rsErasures total fs fragments) := by
  unfold buildCodeword
  rw [buildCodeword_spec total fs fragments hpres total (Nat.le_refl _)]
  simp

/-! Structure of the RS encoding (aligned payloads). -/

theorem length_encodeRS (k r : Nat) (data : List Nat) :
    (encodeRS k r data).length = k + r := by
  simp [encodeRS]

theorem encodeRS_getD (k r : Nat) (data : List Nat) (i : Nat) (h : i < k + r) :
    (encodeRS k r data).getD i []
      = (((data ++ rscParity (r * ceilDiv data.length k) data).drop
          (i * ceilDiv data.length k)).take (ceilDiv data.length k)) := by
  unfold encodeRS
  exact getD_range_map _ _ _ _ h

theorem ceilDiv_mul_of_dvd (len k : Nat) (hk : 0 < k) (hdvd : k ∣ len) :
    k * ceilDiv len k = len := by
  rw [ceilDiv_of_dvd len k hk hdvd]
  exact Nat.mul_div_cancel' hdvd

theorem length_mem_encodeRS (k r : Nat) (data : List Nat) (hk : 0 < k)
    (hdvd : k ∣ data.length) (f : List Nat) (hf : f ∈ encodeRS k r data) :
    f.length = ceilDiv data.length k := by
  unfold encodeRS at hf
  rcases List.mem_map.1 hf with ⟨i, hi, rfl⟩
  have hilt : i < k + r := List.mem_range.1 hi
  have hkfs : k * ceilDiv data.length k = data.length := ceilDiv_mul_of_dvd data.length k hk hdvd
  have hcwlen : (data ++ rscParity (r * ceilDiv data.length k) data).length
      = (k + r) * ceilDiv data.length k := by
    unfold rscParity
    rw [List.length_append, List.length_replicate]
    have hsplit : (k + r) * ceilDiv data.length k
        = k * ceilDiv data.length k + r * ceilDiv data.length k := by ring
    omega
  simp only [List.length_take, List.length_drop, hcwlen]
  have h1 : i * ceilDiv data.length k + ceilDiv data.length k
      ≤ (k + r) * ceilDiv data.length k := by
    have h2 : i + 1 ≤ k + r := hilt
    calc i * ceilDiv data.length k + ceilDiv data.length k
        = (i + 1) * ceilDiv data.length k := by ring
      _ ≤ (k + r) * ceilDiv data.length k := Nat.mul_le_mul_right _ h2
  omega

theorem filter_mask_none (frags : List (List Nat)) (failed : List Nat) :
    (List.range frags.length).filter (fun i => (maskFragments frags failed).getD i none = none)
      = (List.range frags.length).filter (fun i => i ∈ failed) := by
  have h := failedPositions_eq frags failed
  rwa [length_maskFragments] at h

theorem getD_mem_of_lt {α : Type} (l : List α) (i : Nat) (d : α) (h : i < l.length) :
    l.getD i d ∈ l := by
  rw [List.getD_eq_getElem l d h]
  exact List.getElem_mem ..

theorem decodeRS_aligned (k r : Nat) (payload : List Nat) (failed : List Nat)
    (hk : 0 < k) (hpay : 0 < payload.length) (hdvd : k ∣ payload.length)
    (hcap : ((List.range (k + r)).filter (fun i => i ∈ failed)).length ≤ r) :
    decodeRS k r payload (maskFragments (encodeRS k r payload) failed) = some payload := by
  have hkfs : k * ceilDiv payload.length k = payload.length :=
    ceilDiv_mul_of_dvd payload.length k hk hdvd
  have hfspos : 0 < ceilDiv payload.length k := ceilDiv_pos _ _ hpay hk
  have hmlen : (maskFragments (encodeRS k r payload) failed).length = k + r := by
    rw [length_maskFragments, length_encodeRS]
  have hpres : ∀ i, ∀ f,
      (maskFragments (encodeRS k r payload) failed).getD i none = some f
      → f.length = ceilDiv payload.length k := by
    intro i f hgf
    have hilt : i < k + r := by
      by_contra hge
      rw [maskFragments_getD_oob _ _ _ (by rw [length_encodeRS] ; omega)] at hgf
      exact Option.noConfusion hgf
    rw [maskFragments_getD _ _ _ (by rw [length_encodeRS] ; omega)] at hgf
    by_cases hif : i ∈ failed
    · rw [if_pos hif] at hgf
      exact Option.noConfusion hgf
    · rw [if_neg hif] at hgf
      have hfe : f = (encodeRS k r payload).getD i [] := (Option.some_inj.1 hgf).symm
      rw [hfe]
      exact length_mem_encodeRS k r payload hk hdvd _
        (getD_mem_of_lt _ _ _ (by rw [length_encodeRS] ; omega))
  unfold decodeRS
  rw [if_neg (by rw [hmlen] ; omega)]
  cases hh : ((maskFragments (encodeRS k r payload) failed).filterMap id).head? with
  | none =>
    exfalso
    have hnil : (maskFragments (encodeRS k r payload) failed).filterMap id = [] :=
      List.head?_eq_none_iff.1 hh
    have hallf : ∀ i ∈ List.range (k + r), i ∈ failed := by
      intro i hi
      have hilt := List.mem_range.1 hi
      by_contra hif
      have hsome := maskFragments_getD_present (encodeRS k r payload) failed i
        (by rw [length_encodeRS] ; omega) hif
      have hmem : (maskFragments (encodeRS k r payload) failed).getD i none
          ∈ maskFragments (encodeRS k r payload) failed :=
        getD_mem_of_lt _ _ _ (by rw [hmlen] ; omega)
      rw [hsome] at hmem
      have hmem2 : (encodeRS k r payload).getD i []
          ∈ (maskFragments (encodeRS k r payload) failed).filterMap id :=
        List.mem_filterMap.2 ⟨some ((encodeRS k r payload).getD i []), hmem, rfl⟩
      rw [hnil] at hmem2
      simp at hmem2
    have hfull : (List.range (k + r)).filter (fun i => i ∈ failed) = List.range (k + r) :=
      List.filter_eq_self.2 (fun x hx => by simp [hallf x hx])
    rw [hfull, List.length_range] at hcap
    omega
  | some f0 =>
    have hmem0 : f0 ∈ (maskFragments (encodeRS k r payload) failed).filterMap id :=
      List.mem_of_mem_head? (by simp [hh])
    have hf0 : f0.length = ceilDiv payload.length k := by
      rcases List.mem_filterMap.1 hmem0 with ⟨x, hx, hxf⟩
      have hxs : x = some f0 := hxf
      rw [hxs] at hx
      unfold maskFragments at hx
      rcases List.mem_map.1 hx with ⟨i, hi, hgi⟩
      by_cases hif : i ∈ failed
      · rw [if_pos hif] at hgi
        exact Option.noConfusion hgi
      · rw [if_neg hif] at hgi
        have hfe : f0 = (encodeRS k r payload).getD i [] := (Option.some_inj.1 hgi).symm
        rw [hfe]
        have hilt : i < k + r := by
          have := List.mem_range.1 hi
          rwa [length_encodeRS] at this
        exact length_mem_encodeRS k r payload hk hdvd _
          (getD_mem_of_lt _ _ _ (by rw [length_encodeRS] ; omega))
    simp only []
    rw [hf0]
    rw [buildCodeword_eq (k + r) _ _ hpres]
    simp only []
    have heras : rsErasures (k + r) (ceilDiv payload.length k)
        (maskFragments (encodeRS k r payload) failed)
        = (((List.range (k + r)).filter (fun i => i ∈ failed)).map
            (fun i => (List.range (ceilDiv payload.length k)).map
              (fun j => i * ceilDiv payload.length k + j))).flatten := by
      unfold rsErasures
      have hfeq := filter_mask_none (encodeRS k r payload) failed
      rw [length_encodeRS] at hfeq
      rw [hfeq]
    have hreclen : ((rsPieces (k + r) (ceilDiv payload.length k)
        (maskFragments (encodeRS k r payload) failed)).flatten).length
        = (k + r) * ceilDiv payload.length k :=
      rsPieces_flatten_length _ _ _ hpres
    have htclen : (payload ++ rscParity (r * ceilDiv payload.length k) payload).length
        = (k + r) * ceilDiv payload.length k := by
      unfold rscParity
      rw [List.length_append, List.length_replicate]
      have hsplit : (k + r) * ceilDiv payload.length k
          = k * ceilDiv payload.length k + r * ceilDiv payload.length k := by ring
      omega
    unfold rscDecode
    rw [if_neg ?hcapb]
    case hcapb =>
      push_neg
      rw [heras, length_chunk_flatten]
      exact Nat.mul_le_mul_right _ hcap
    rw [if_pos ?hagree]
    case hagree =>
      constructor
      · rw [hreclen, htclen]
      · intro i hi hni
        rw [hreclen] at hi
        have hilt : i < (k + r) * ceilDiv payload.length k := List.mem_range.1 hi
        have hq : i / ceilDiv payload.length k < k + r := div_lt_of_lt_mul' _ _ _ hilt
        have hb : i % ceilDiv payload.length k < ceilDiv payload.length k :=
          Nat.mod_lt _ hfspos
        have hdecomp : i = i / ceilDiv payload.length k * ceilDiv payload.length k
            + i % ceilDiv payload.length k := div_add_mod_decomp i _ hfspos
        have hqnf : i / ceilDiv payload.length k ∉ failed := by
          intro hqf
          apply hni
          rw [heras, hdecomp]
          exact mem_chunk_flatten _ _ _ _
            (List.mem_filter.2 ⟨List.mem_range.2 hq, by simpa using hqf⟩) hb
            (fun p c => p * ceilDiv payload.length k + c)
        rw [hdecomp]
        rw [flatten_getD_uniform _ (ceilDiv payload.length k)
          (rsPieces_length_uniform _ _ _ hpres) _ _ (by simp [rsPieces] ; omega) hb]
        have hpq : (rsPieces (k + r) (ceilDiv payload.length k)
            (maskFragments (encodeRS k r payload) failed)).getD
              (i / ceilDiv payload.length k) []
            = (((payload ++ rscParity (r * ceilDiv payload.length k) payload).drop
                (i / ceilDiv payload.length k * ceilDiv payload.length k)).take
                (ceilDiv payload.length k)) := by
          unfold rsPieces
          rw [getD_range_map _ _ _ _ hq]
          rw [maskFragments_getD_present (encodeRS k r payload) failed _
            (by rw [length_encodeRS] ; omega) hqnf]
          simp only []
          rw [encodeRS_getD k r payload _ hq]
        rw [hpq]
        rw [getD_slice _ _ _ _ hb (by
          rw [htclen]
          have h2 : i / ceilDiv payload.length k + 1 ≤ k + r := hq
          calc i / ceilDiv payload.length k * ceilDiv payload.length k
              + ceilDiv payload.length k
              = (i / ceilDiv payload.length k + 1) * ceilDiv payload.length k := by ring
            _ ≤ (k + r) * ceilDiv payload.length k := Nat.mul_le_mul_right _ h2)]
    rw [htclen]
    have hsub : (k + r) * ceilDiv payload.length k - r * ceilDiv payload.length k
        = payload.length := by
      have hsplit : (k + r) * ceilDiv payload.length k
          = k * ceilDiv payload.length k + r * ceilDiv payload.length k := by ring
      omega
    rw [hsub]
    congr 1
    exact List.take_left ..

/-! Cluster-state lemmas. -/

theorem getD_map_lt {α β : Type} (l : List α) (f : α → β) (i : Nat) (d : β) (d0 : α)
    (h : i < l.length) : (l.map f).getD i d = f (l.getD i d0) := by
  rw [List.getD_eq_getElem _ _ (by simpa using h), List.getD_eq_getElem _ _ h, List.getElem_map]

theorem set_getD_eq {α : Type} (l : List α) (i : Nat) (x : α) (h : l[i]? = some x) :
    l.set i x = l := by
  apply List.ext_getElem?
  intro n
  rw [List.getElem?_set]
  split
  · next hn =>
    subst hn
    split
    · next => exact h.symm
    · next hlt =>
      rw [List.getElem?_eq_none (by omega)] at h
      exact Option.noConfusion h
  · rfl

theorem setAliveAt_map_preserve {γ : Type} (nodes : List NodeSt) (i : Nat) (b : Bool)
    (f : NodeSt → γ)
    (hf : ∀ nd b2, f ⟨nd.node_id, nd.fragment, b2⟩ = f nd) :
    (setAliveAt nodes i b).map f = nodes.map f := by
  unfold setAliveAt
  cases hg : nodes.get? i with
  | none => rfl
  | some nd =>
    rw [List.map_set]
    have hf2 : f ⟨nd.node_id, nd.fragment, b⟩ = f nd := hf nd b
    rw [hf2]
    apply set_getD_eq
    rw [List.getElem?_map]
    have hg2 : nodes[i]? = some nd := by
      rw [← List.get?_eq_getElem?]
      exact hg
    rw [hg2, Option.map_some']

theorem stepCmd_map_preserve {γ : Type} (nodes : List NodeSt) (c : ClusterCmd)
    (f : NodeSt → γ)
    (hf : ∀ nd b2, f ⟨nd.node_id, nd.fragment, b2⟩ = f nd) :
    (stepCmd nodes c).map f = nodes.map f := by
  cases c with
  | failAt i => exact setAliveAt_map_preserve nodes i false f hf
  | recoverAt i => exact setAliveAt_map_preserve nodes i true f hf
  | resetAll =>
    unfold stepCmd
    rw [List.map_map]
    apply List.map_congr_left
    intro nd _
    exact hf nd true

theorem runCmds_map_preserve {γ : Type} (cmds : List ClusterCmd) (nodes : List NodeSt)
    (f : NodeSt → γ)
    (hf : ∀ nd b2, f ⟨nd.node_id, nd.fragment, b2⟩ = f nd) :
    (runCmds nodes cmds).map f = nodes.map f := by
  induction cmds generalizing nodes with
  | nil => rfl
  | cons c t ih =>
    unfold runCmds at ih ⊢
    rw [List.foldl_cons, ih (stepCmd nodes c), stepCmd_map_preserve nodes c f hf]

theorem aliveIds_nodup (nodes : List NodeSt) (h : (nodes.map NodeSt.node_id).Nodup) :
    ((aliveNodes nodes).map NodeSt.node_id).Nodup :=
  h.sublist ((List.filter_sublist ..).map NodeSt.node_id)

theorem fail_nodes_state (nodes : List NodeSt) (sample : List Nat) (i : Nat)
    (hi : i < nodes.length) :
    ((fail_nodes nodes sample).1.getD i ⟨0, none, false⟩).node_id
        = (nodes.getD i ⟨0, none, false⟩).node_id
    ∧ ((fail_nodes nodes sample).1.getD i ⟨0, none, false⟩).fragment
        = (nodes.getD i ⟨0, none, false⟩).fragment
    ∧ (((fail_nodes nodes sample).1.getD i ⟨0, none, false⟩).is_alive = true
        ↔ ((nodes.getD i ⟨0, none, false⟩).is_alive = true
          ∧ (nodes.getD i ⟨0, none, false⟩).node_id ∉ sample)) := by
  unfold fail_nodes
  rw [getD_map_lt nodes _ i _ ⟨0, none, false⟩ hi]
  by_cases hmem : (nodes.getD i ⟨0, none, false⟩).node_id ∈ sample
  · rw [if_pos hmem]
    refine ⟨rfl, rfl, ?_⟩
    constructor
    · intro hfalse
      exact Bool.noConfusion hfalse
    · intro hand
      exact absurd hmem hand.2
  · rw [if_neg hmem]
    refine ⟨rfl, rfl, ?_⟩
    constructor
    · intro htrue
      exact ⟨htrue, hmem⟩
    · intro hand
      exact hand.1

theorem fail_nodes_clamp_all_dead (nodes : List NodeSt) (count : Nat) (sample : List Nat)
    (hids : (nodes.map NodeSt.node_id).Nodup)
    (hsnd : sample.Nodup)
    (hsub : ∀ x ∈ sample, x ∈ (aliveNodes nodes).map NodeSt.node_id)
    (hslen : sample.length = clampedCount nodes count)
    (hclamp : (aliveNodes nodes).length ≤ count) :
    ∀ nd ∈ (fail_nodes nodes sample).1, nd.is_alive = false := by
  have hlen2 : sample.length = ((aliveNodes nodes).map NodeSt.node_id).length := by
    rw [hslen, List.length_map]
    unfold clampedCount
    omega
  have hperm : List.Perm sample ((aliveNodes nodes).map NodeSt.node_id) :=
    (hsnd.subperm (fun x hx => hsub x hx)).perm_of_length_le (by omega)
  have hmemiff : ∀ x, x ∈ sample ↔ x ∈ (aliveNodes nodes).map NodeSt.node_id :=
    fun x => hperm.mem_iff
  intro nd hnd
  unfold fail_nodes at hnd
  rcases List.mem_map.1 hnd with ⟨nd0, hnd0, rfl⟩
  by_cases hmem : nd0.node_id ∈ sample
  · rw [if_pos hmem]
  · rw [if_neg hmem]
    cases halive : nd0.is_alive with
    | false => rfl
    | true =>
      exfalso
      apply hmem
      rw [hmemiff]
      apply List.mem_map.2
      refine ⟨nd0, ?_, rfl⟩
      unfold aliveNodes
      exact List.mem_filter.2 ⟨hnd0, by simp [halive]⟩

/-! Remaining auxiliary lemmas for the claim theorems. -/

theorem stripZeros_eq_self_of_ne (l : List Nat) (hne : l ≠ []) (hl : l.getLast? ≠ some 0) :
    stripZeros l = l := by
  rcases hg : l.getLast? with _ | a
  · rw [List.getLast?_eq_none_iff] at hg
    exact absurd hg hne
  · exact stripZeros_of_last_ne l a (by
      intro ha
      rw [ha] at hg
      exact hl hg) hg

theorem filter_range_mem_pair_lower (k d p : Nat) (hd : d < k) (hp : k ≤ p) :
    (List.range k).filter (fun i => i ∈ [d, p]) = [d] := by
  have hcong : (List.range k).filter (fun i => i ∈ [d, p])
      = (List.range k).filter (fun i => i ∈ [d]) := by
    apply List.filter_congr
    intro i hi
    have hik : i < k := List.mem_range.1 hi
    have hip : i ≠ p := by omega
    simp [hip]
  rw [hcong]
  exact filter_range_mem_single k d hd

theorem fail_nodes_alive_filter (nodes : List NodeSt) (sample : List Nat) :
    ((fail_nodes nodes sample).1).filter (fun nd => nd.is_alive)
      = nodes.filter (fun nd => nd.is_alive ∧ nd.node_id ∉ sample) := by
  unfold fail_nodes
  induction nodes with
  | nil => rfl
  | cons nd t ih =>
    simp only [List.map_cons, List.filter_cons]
    by_cases hmem : nd.node_id ∈ sample
    · rw [if_pos hmem]
      have h2 : ¬(nd.is_alive = true ∧ nd.node_id ∉ sample) := by simp [hmem]
      simp only [List.filter_cons]
      rw [if_neg (by simp), if_neg (by simpa using h2)]
      exact ih
    · rw [if_neg hmem]
      cases halive : nd.is_alive with
      | false =>
        have h2 : ¬(nd.is_alive = true ∧ nd.node_id ∉ sample) := by simp [halive]
        rw [if_neg (by simp [halive]), if_neg (by simpa using h2)]
        exact ih
      | true =>
        rw [if_pos (by simp [halive]), if_pos (by simp [halive, hmem])]
        rw [ih]

/-! Claim theorems. -/

/-- C4 (code bug): EncoderLRC.encode always emits exactly one local parity per group,
so for local_parity_count = 2 (k = 2, group_size = 2, global_parity_count = 2) it
returns 5 fragments while the encoder's own `total_fragments` formula (and the claim)
say k + num_groups * local_parity_count + global_parity_count = 6.  The RS encoder
does return k + r fragments.  In general the LRC encode output has
k + num_groups + global_parity_count fragments, independent of local_parity_count. -/
theorem C4_fragment_count_bug :
    (encodeLRC ⟨2, 2, 2, 2⟩ [1, 2, 3, 4]).length = 5
    ∧ totalFragments ⟨2, 2, 2, 2⟩ = 6
    ∧ (5 : Nat) ≠ 6
    ∧ (encodeRS 6 3 pay24).length = 9
    ∧ (∀ (cfg : LRCConfig) (data : List Nat),
        (encodeLRC cfg data).length = cfg.k + numGroups cfg + cfg.gp)
    ∧ (∀ (k r : Nat) (data : List Nat), (encodeRS k r data).length = k + r) := by
  refine ⟨by decide, by decide, by decide, by decide, ?_, ?_⟩
  · exact length_encodeLRC
  · exact length_encodeRS

/-- C8 (code bug): ScenarioRunner.validate_config computes the group count with floor
division (k // group_size) while the encoder uses ceiling division, so the
configuration k = 7, group_size = 3, local_parity = 1, global_parity = 2 with
num_nodes = 11 passes validation (floor total 7 + 2 + 2 = 11 <= 11) even though the
true derived total_fragments is 12 > 11; encoding is then performed and produces 12
fragments, which Cluster.distribute_fragments cannot place on 11 nodes. -/
theorem C8_validation_uses_floor :
    validateConfig 11 7 3 1 2 = true
    ∧ totalFragments ⟨7, 3, 1, 2⟩ = 12
    ∧ ¬ (totalFragments ⟨7, 3, 1, 2⟩ ≤ 11)
    ∧ (encodeLRC ⟨7, 3, 1, 2⟩ pay7).length = 12
    ∧ distributeOk 11 (encodeLRC ⟨7, 3, 1, 2⟩ pay7) = false := by
  exact ⟨by decide, by decide, by decide, by decide, by decide⟩

/-- C1 (counterexample): erasing 3 data fragments with global_parity_count = 2
(k = 6, group_size = 3) makes the RS decode fail, but EncoderLRC.global_repair does
not raise: it catches the failure and returns the surviving data with the erased
fragments zero-filled — a byte string that differs from the original payload. -/
theorem C1_counterexample :
    global_repair ⟨6, 3, 1, 2⟩ pay24 (maskFragments (encodeLRC ⟨6, 3, 1, 2⟩ pay24) [0, 1, 2])
      = some (List.replicate 12 0 ++ pay24.drop 12)
    ∧ global_repair ⟨6, 3, 1, 2⟩ pay24
        (maskFragments (encodeLRC ⟨6, 3, 1, 2⟩ pay24) [0, 1, 2]) ≠ none
    ∧ some (List.replicate 12 0 ++ pay24.drop 12) ≠ some pay24 := by
  exact ⟨by decide, by decide, by decide⟩

/-- C1 (amended): when more data fragments than global_parity_count are erased, the
RS decode of the data plus global-parity codeword fails, and EncoderLRC.global_repair
catches the failure instead of raising UncorrectableErasure: it returns the
concatenation of the data fragments with every erased fragment zero-filled, trailing
zeros stripped — corrupted data rather than an error. -/
theorem C1_over_capacity_returns_zero_fill (cfg : LRCConfig) (payload : List Nat)
    (failed : List Nat) (hk : 0 < cfg.k) (hpay : 0 < payload.length) (hlp1 : cfg.lp = 1)
    (hover : cfg.gp < ((List.range cfg.k).filter (fun i => i ∈ failed)).length) :
    global_repair cfg payload (maskFragments (encodeLRC cfg payload) failed)
      = some (stripZeros ((List.range cfg.k).map (fun i => if i ∈ failed then
          List.replicate (ceilDiv payload.length cfg.k) 0
        else dataFragment payload (ceilDiv payload.length cfg.k) i)).flatten) :=
  global_repair_overCapacity cfg payload failed hk hpay hlp1 hover

/-- Witness for C1: the amended behaviour at the concrete over-capacity scenario. -/
theorem C1_witness :
    global_repair ⟨6, 3, 1, 2⟩ pay24 (maskFragments (encodeLRC ⟨6, 3, 1, 2⟩ pay24) [0, 1, 2])
      = some (stripZeros ((List.range 6).map (fun i => if i ∈ [0, 1, 2] then
          List.replicate (ceilDiv pay24.length 6) 0
        else dataFragment pay24 (ceilDiv pay24.length 6) i)).flatten) :=
  C1_over_capacity_returns_zero_fill ⟨6, 3, 1, 2⟩ pay24 [0, 1, 2]
    (by decide) (by decide) rfl (by decide)

/-- C2 (counterexample): for k = 7, group_size = 3 the last group holds a single data
fragment; erasing it (index 6) selects Local repair but reads only 1 fragment (0
surviving group data plus the local parity), not group_size = 3 as the claim states. -/
theorem C2_counterexample :
    (reconstructLRC ⟨7, 3, 1, 2⟩ pay7 [6]).strategy = Strategy.localXor
    ∧ (reconstructLRC ⟨7, 3, 1, 2⟩ pay7 [6]).fragmentsAccessed = 1
    ∧ (reconstructLRC ⟨7, 3, 1, 2⟩ pay7 [6]).recovered = some pay7
    ∧ (1 : Nat) ≠ 3 := by
  exact ⟨by decide, by decide, by decide, by decide⟩

/-- C2 (amended): erasing exactly one data fragment whose group's local parity
survives reconstructs that fragment byte-for-byte by XOR, selects the Local strategy,
and reads exactly the failed fragment's group size many fragments — that is
min (group_size, k - group_start) (the group's data-fragment count: group_size - 1
surviving data fragments plus 1 local parity for full groups, fewer for a ragged last
group) — and decode returns the payload with its zero padding stripped. -/
theorem C2_single_local_repair (cfg : LRCConfig) (payload : List Nat) (d : Nat)
    (hgs : 0 < cfg.gs) (hd : d < cfg.k) :
    local_repair cfg (ceilDiv payload.length cfg.k)
        (maskFragments (encodeLRC cfg payload) [d]) d
      = some (dataFragment payload (ceilDiv payload.length cfg.k) d)
    ∧ reconstructLRC cfg payload [d]
      = ⟨some (stripZeros payload), min cfg.gs (cfg.k - d / cfg.gs * cfg.gs), true,
          Strategy.localXor⟩ := by
  refine ⟨local_repair_single cfg payload d hgs hd, ?_⟩
  rw [reconstructLRC_singleData cfg payload d hgs hd]
  congr 1
  have h8 : d / cfg.gs * cfg.gs ≤ d := div_mul_le_self' d cfg.gs
  omega

/-- Witness for C2: the spec's concrete scenario (k = 6, group_size = 3,
local_parity = 1, global_parity = 2, 24-byte payload, node 1 failed): Local strategy,
3 fragments read, original payload recovered, and fragment 1 rebuilt byte-for-byte. -/
theorem C2_witness :
    local_repair ⟨6, 3, 1, 2⟩ (ceilDiv pay24.length 6)
        (maskFragments (encodeLRC ⟨6, 3, 1, 2⟩ pay24) [1]) 1
      = some (dataFragment pay24 (ceilDiv pay24.length 6) 1)
    ∧ reconstructLRC ⟨6, 3, 1, 2⟩ pay24 [1]
      = ⟨some (stripZeros pay24), min 3 (6 - 1 / 3 * 3), true, Strategy.localXor⟩ :=
  C2_single_local_repair ⟨6, 3, 1, 2⟩ pay24 1 (by decide) (by decide)

/-- C3 (counterexample): with local_parity_count = 2 (k = 2, group_size = 2,
global_parity = 1) the erasure pattern {data 0, its local parity 2} is within the
global code's capacity (1 missing data fragment <= 1 global parity) and selects
Global repair as claimed, but reconstruction does not succeed: global_repair indexes
the global-parity region at k + num_groups * local_parity, past the end of the
encoded fragment list, and the resulting error leaves no recovered payload. -/
theorem C3_counterexample :
    (reconstructLRC ⟨2, 2, 2, 1⟩ [1, 2, 3, 4] [0, 2]).strategy = Strategy.globalMultiple
    ∧ (reconstructLRC ⟨2, 2, 2, 1⟩ [1, 2, 3, 4] [0, 2]).recovered = none
    ∧ (reconstructLRC ⟨2, 2, 2, 1⟩ [1, 2, 3, 4] [0, 2]).recovered
        ≠ some (stripZeros [1, 2, 3, 4]) := by
  exact ⟨by decide, by decide, by decide⟩

/-- C3 (amended, for local_parity_count = 1, where encode's layout matches
global_repair's offsets): the repair-strategy selection follows the source's branch
order exactly — zero erasures returns the stored data directly; exactly one missing
data fragment (its local parity is then necessarily present) selects Local repair; a
single missing parity fragment selects Global (parity fragment failed); two or more
failures anywhere select Global (multiple failures); and the local-parity-missing
pattern (a data fragment together with its group's local parity, two failures) goes
through Global repair and still reconstructs the payload (up to padding-strip) when
the global code has capacity for the one missing data fragment. -/
theorem C3_branch_order (cfg : LRCConfig) (payload : List Nat)
    (hk : 0 < cfg.k) (hgs : 0 < cfg.gs) (hpay : 0 < payload.length) (hlp1 : cfg.lp = 1) :
    reconstructLRC cfg payload []
      = ⟨some (stripZeros payload), cfg.k + numGroups cfg + cfg.gp, false, Strategy.default⟩
    ∧ (∀ d, d < cfg.k → (reconstructLRC cfg payload [d]).strategy = Strategy.localXor
        ∧ (reconstructLRC cfg payload [d]).localRepairUsed = true)
    ∧ (∀ p, cfg.k ≤ p → p < cfg.k + numGroups cfg + cfg.gp →
        (reconstructLRC cfg payload [p]).strategy = Strategy.globalParityFailed
        ∧ (reconstructLRC cfg payload [p]).localRepairUsed = false)
    ∧ (∀ failed, failed.Nodup → (∀ x ∈ failed, x < cfg.k + numGroups cfg + cfg.gp) →
        2 ≤ failed.length →
        (reconstructLRC cfg payload failed).strategy = Strategy.globalMultiple
        ∧ (reconstructLRC cfg payload failed).localRepairUsed = false)
    ∧ (∀ d, d < cfg.k → 1 ≤ cfg.gp →
        reconstructLRC cfg payload [d, cfg.k + d / cfg.gs]
          = ⟨some (stripZeros payload), cfg.k + cfg.gp, false, Strategy.globalMultiple⟩) := by
  refine ⟨reconstructLRC_empty cfg payload hk hpay hlp1, ?_, ?_, ?_, ?_⟩
  · intro d hd
    rw [reconstructLRC_singleData cfg payload d hgs hd]
    exact ⟨rfl, rfl⟩
  · intro p hp hplt
    rw [reconstructLRC_singleParity cfg payload p hp hplt]
    exact ⟨rfl, rfl⟩
  · intro failed hnd hlt h2
    rw [reconstructLRC_multi cfg payload failed hnd hlt h2]
    exact ⟨rfl, rfl⟩
  · intro d hd hgp
    have hgidlt : d / cfg.gs < numGroups cfg := div_lt_numGroups cfg d hgs hd
    have hdlt : d < cfg.k + d / cfg.gs := lt_of_lt_of_le hd (Nat.le_add_right ..)
    have hnd : ([d, cfg.k + d / cfg.gs] : List Nat).Nodup := by
      refine List.nodup_cons.2 ⟨?_, List.nodup_singleton _⟩
      exact fun h => absurd (List.mem_singleton.1 h) (Nat.ne_of_lt hdlt)
    have hlt : ∀ x ∈ ([d, cfg.k + d / cfg.gs] : List Nat),
        x < cfg.k + numGroups cfg + cfg.gp := by
      intro x hx
      rcases List.mem_cons.1 hx with rfl | hx2
      · exact lt_of_lt_of_le hd
          (Nat.le_trans (Nat.le_add_right _ _) (Nat.le_add_right _ _))
      · rcases List.mem_cons.1 hx2 with rfl | hx3
        · exact lt_of_lt_of_le (Nat.add_lt_add_left hgidlt _) (Nat.le_add_right _ _)
        · simp at hx3
    rw [reconstructLRC_multi cfg payload [d, cfg.k + d / cfg.gs] hnd hlt (by simp)]
    have hdataf : (List.range cfg.k).filter
        (fun i => i ∈ ([d, cfg.k + d / cfg.gs] : List Nat)) = [d] :=
      filter_range_mem_pair_lower cfg.k d (cfg.k + d / cfg.gs) hd (Nat.le_add_right ..)
    have hglobf : (List.range cfg.gp).filter
        (fun j => cfg.k + numGroups cfg + j ∈ ([d, cfg.k + d / cfg.gs] : List Nat)) = [] := by
      apply List.filter_eq_nil_iff.2
      intro j hj
      simp only [decide_eq_true_eq]
      intro hmem
      rcases List.mem_cons.1 hmem with h1 | h2
      · omega
      · rcases List.mem_cons.1 h2 with h1 | h3
        · have h2' : numGroups cfg + j = d / cfg.gs := by
            have h1' : cfg.k + (numGroups cfg + j) = cfg.k + d / cfg.gs := by
              rw [← Nat.add_assoc]
              exact h1
            exact Nat.add_left_cancel h1'
          have hge : numGroups cfg ≤ d / cfg.gs := h2' ▸ Nat.le_add_right _ _
          exact absurd hgidlt (Nat.not_lt.2 hge)
        · exact absurd h3 (List.not_mem_nil _)
    rw [global_repair_within cfg payload [d, cfg.k + d / cfg.gs] hk hpay hlp1 (by
      rw [hdataf, hglobf]
      simpa using hgp)]

/-- Witness for C3: the concrete scenario (k = 6, group_size = 3, local_parity = 1,
global_parity = 2, 24-byte payload): no erasure returns the payload directly; a
parity-fragment failure and a double failure go Global; the local-parity-missing
pattern {0, 6} still recovers the payload through Global repair. -/
theorem C3_witness :
    reconstructLRC ⟨6, 3, 1, 2⟩ pay24 []
      = ⟨some (stripZeros pay24), 6 + numGroups ⟨6, 3, 1, 2⟩ + 2, false, Strategy.default⟩
    ∧ reconstructLRC ⟨6, 3, 1, 2⟩ pay24 [0, 6 + 0 / 3]
      = ⟨some (stripZeros pay24), 6 + 2, false, Strategy.globalMultiple⟩ := by
  have h := C3_branch_order ⟨6, 3, 1, 2⟩ pay24 (by decide) (by decide) (by decide) rfl
  exact ⟨h.1, h.2.2.2.2 0 (by decide) (by decide)⟩

/-- C5 (counterexample): with a 7-byte payload and RS k = 6, r = 3, the fragment
sizes are not all equal to ceil(7/6) = 2: EncoderRS.encode slices the unpadded
codeword into fragment_size pieces, so the 7th fragment has 1 byte and the parity
fragments are empty. -/
theorem C5_counterexample :
    (encodeRS 6 3 pay7).map List.length = [2, 2, 2, 2, 2, 2, 1, 0, 0]
    ∧ ((encodeRS 6 3 pay7).getD 6 []).length ≠ ceilDiv pay7.length 6 := by
  exact ⟨by decide, by decide⟩

/-- C5 (amended): every fragment of one encode call has byte length
fragment_size = ceil(payload_len / k) — unconditionally for LRC, whose encode pads
each data slice to fragment_size; for RS only when k divides the payload length,
since EncoderRS.encode performs no padding before slicing. -/
theorem C5_fragment_sizes (cfg : LRCConfig) (k r : Nat) (payload : List Nat)
    (hk : 0 < k) (hdvd : k ∣ payload.length) :
    (∀ f ∈ encodeLRC cfg payload, f.length = ceilDiv payload.length cfg.k)
    ∧ (∀ f ∈ encodeRS k r payload, f.length = ceilDiv payload.length k) :=
  ⟨fun f hf => length_mem_encodeLRC cfg payload f hf,
   fun f hf => length_mem_encodeRS k r payload hk hdvd f hf⟩

/-- Witness for C5: for the 24-byte payload with k = 6 (fragment_size 4), the first
LRC fragment and the last RS fragment both have length ceil(24/6) = 4. -/
theorem C5_witness :
    ((encodeLRC ⟨6, 3, 1, 2⟩ pay24).getD 0 []).length = ceilDiv pay24.length 6
    ∧ ((encodeRS 6 3 pay24).getD 8 []).length = ceilDiv pay24.length 6 :=
  ⟨(C5_fragment_sizes ⟨6, 3, 1, 2⟩ 6 3 pay24 (by decide) (by decide)).1 _ (by decide),
   (C5_fragment_sizes ⟨6, 3, 1, 2⟩ 6 3 pay24 (by decide) (by decide)).2 _ (by decide)⟩

/-- C6 (counterexample): for a payload ending in a zero byte, the LRC decode with no
erasures strips that trailing byte along with the padding (rstrip of zero bytes in
global_repair), so the round-trip does not return the original payload. -/
theorem C6_counterexample :
    (reconstructLRC ⟨6, 3, 1, 2⟩ pay24z []).recovered = some (stripZeros pay24z)
    ∧ (reconstructLRC ⟨6, 3, 1, 2⟩ pay24z []).recovered ≠ some pay24z := by
  exact ⟨by decide, by decide⟩

/-- C6 (amended): the no-erasure round-trip returns the original payload — for LRC
(local_parity = 1) when the payload is non-empty and its last byte is nonzero, so
the trailing-zero strip removes exactly the padding; for RS when k divides the
payload length, in which case decode returns the payload exactly with no strip
needed. -/
theorem C6_roundtrip (cfg : LRCConfig) (k r : Nat) (payload : List Nat)
    (hk : 0 < cfg.k) (hlp1 : cfg.lp = 1)
    (hpay : payload ≠ []) (hlast : payload.getLast? ≠ some 0)
    (hk2 : 0 < k) (hdvd : k ∣ payload.length) :
    (reconstructLRC cfg payload []).recovered = some payload
    ∧ decodeRS k r payload (maskFragments (encodeRS k r payload) []) = some payload := by
  have hplen : 0 < payload.length := List.length_pos.2 hpay
  constructor
  · rw [reconstructLRC_empty cfg payload hk hplen hlp1]
    simp only []
    rw [stripZeros_eq_self_of_ne payload hpay hlast]
  · exact decodeRS_aligned k r payload [] hk2 hplen hdvd (by simp)

/-- Witness for C6: the 24-byte payload (last byte 24, length divisible by 6)
round-trips through both schemes. -/
theorem C6_witness :
    (reconstructLRC ⟨6, 3, 1, 2⟩ pay24 []).recovered = some pay24
    ∧ decodeRS 6 3 pay24 (maskFragments (encodeRS 6 3 pay24) []) = some pay24 :=
  C6_roundtrip ⟨6, 3, 1, 2⟩ 6 3 pay24 (by decide) rfl (by decide) (by decide)
    (by decide) (by decide)

/-- C7 (counterexample): with the 7-byte payload (not a multiple of k = 6) and the
three parity fragments erased, EncoderRS.decode returns the payload zero-padded to
k * fragment_size = 12 bytes, not the original payload: decode rebuilds a
total * fragment_size buffer and returns its first k * fragment_size bytes. -/
theorem C7_counterexample :
    decodeRS 6 3 pay7 (maskFragments (encodeRS 6 3 pay7) [6, 7, 8])
      = some (pay7 ++ [0, 0, 0, 0, 0])
    ∧ decodeRS 6 3 pay7 (maskFragments (encodeRS 6 3 pay7) [6, 7, 8]) ≠ some pay7 := by
  exact ⟨by decide, by decide⟩

/-- C7 (amended): when k divides the payload length, EncoderRS.decode reconstructs
the original payload from any erasure pattern leaving at least k of the k + r
fragments available; both missing data and missing parity positions are passed to
the codec as byte-granularity erasures, through the single repair path. -/
theorem C7_rs_decode (k r : Nat) (payload : List Nat) (failed : List Nat)
    (hk : 0 < k) (hpay : 0 < payload.length) (hdvd : k ∣ payload.length)
    (hcap : ((List.range (k + r)).filter (fun i => i ∈ failed)).length ≤ r) :
    decodeRS k r payload (maskFragments (encodeRS k r payload) failed) = some payload :=
  decodeRS_aligned k r payload failed hk hpay hdvd hcap

/-- Witness for C7: the 24-byte payload with RS 6+3, erasing one data fragment, one
more data fragment, and one parity fragment (positions 0, 4, 8 — exactly r = 3
erasures, k = 6 fragments remain) decodes back to the payload. -/
theorem C7_witness :
    decodeRS 6 3 pay24 (maskFragments (encodeRS 6 3 pay24) [0, 4, 8]) = some pay24 :=
  C7_rs_decode 6 3 pay24 [0, 4, 8] (by decide) (by decide) (by decide) (by decide)

/-- C9: Cluster.fail_nodes is total and clamps. For any cluster state and any sample
that random.sample could produce (distinct node ids drawn from the currently alive
nodes, of the clamped size min(count, alive)): the call returns exactly the sampled
ids; node ids and stored fragments are untouched; when count exceeds the alive count
every node ends up dead; when count is at most the alive count exactly count nodes
are sampled; and the nodes remaining alive are precisely the previously alive nodes
outside the sample. -/
theorem C9_fail_nodes_total (nodes : List NodeSt) (count : Nat) (sample : List Nat)
    (hids : (nodes.map NodeSt.node_id).Nodup)
    (hsnd : sample.Nodup)
    (hsub : ∀ x ∈ sample, x ∈ (aliveNodes nodes).map NodeSt.node_id)
    (hslen : sample.length = clampedCount nodes count) :
    (fail_nodes nodes sample).2 = sample
    ∧ (fail_nodes nodes sample).1.map NodeSt.node_id = nodes.map NodeSt.node_id
    ∧ (fail_nodes nodes sample).1.map NodeSt.fragment = nodes.map NodeSt.fragment
    ∧ ((aliveNodes nodes).length ≤ count →
        ∀ nd ∈ (fail_nodes nodes sample).1, nd.is_alive = false)
    ∧ (count ≤ (aliveNodes nodes).length → sample.length = count)
    ∧ (fail_nodes nodes sample).1.filter (fun nd => nd.is_alive)
        = nodes.filter (fun nd => nd.is_alive ∧ nd.node_id ∉ sample) := by
  refine ⟨rfl, ?_, ?_, ?_, ?_, fail_nodes_alive_filter nodes sample⟩
  · unfold fail_nodes
    simp only [List.map_map]
    apply List.map_congr_left
    intro nd _
    by_cases hmem : nd.node_id ∈ sample
    · simp [hmem, Function.comp]
    · simp [hmem, Function.comp]
  · unfold fail_nodes
    simp only [List.map_map]
    apply List.map_congr_left
    intro nd _
    by_cases hmem : nd.node_id ∈ sample
    · simp [hmem, Function.comp]
    · simp [hmem, Function.comp]
  · intro hclamp
    exact fail_nodes_clamp_all_dead nodes count sample hids hsnd hsub hslen hclamp
  · intro hle
    rw [hslen]
    unfold clampedCount
    omega

/-- Witness for C9: a three-node cluster with nodes 0 and 1 alive and node 2
already dead, asked to fail 5 nodes: the sample clamps to the two alive ids
[0, 1]; the call returns them, node ids are unchanged, and afterwards the node
at position 0 (and every other node) is dead. -/
theorem C9_witness :
    (fail_nodes [⟨0, some [1], true⟩, ⟨1, some [2], true⟩, ⟨2, none, false⟩] [0, 1]).2
      = [0, 1]
    ∧ (fail_nodes [⟨0, some [1], true⟩, ⟨1, some [2], true⟩, ⟨2, none, false⟩]
        [0, 1]).1.map NodeSt.node_id
      = ([⟨0, some [1], true⟩, ⟨1, some [2], true⟩, ⟨2, none, false⟩]
          : List NodeSt).map NodeSt.node_id
    ∧ ((fail_nodes [⟨0, some [1], true⟩, ⟨1, some [2], true⟩, ⟨2, none, false⟩]
        [0, 1]).1.getD 0 ⟨0, none, true⟩).is_alive = false := by
  have h := C9_fail_nodes_total
    [⟨0, some [1], true⟩, ⟨1, some [2], true⟩, ⟨2, none, false⟩] 5 [0, 1]
    (by decide) (by decide) (by decide) (by decide)
  exact ⟨h.1, h.2.1, h.2.2.2.1 (by decide) _ (by decide)⟩

/-- C10: Node.fail, Node.recover and Cluster.reset_all_nodes only toggle the
is_alive flag: any sequence of these commands leaves every node's node_id and
stored fragment unchanged, so fragments distributed before a failure phase are
still present after reset_all_nodes. -/
theorem C10_frame (cmds : List ClusterCmd) (nodes : List NodeSt) :
    (runCmds nodes cmds).map NodeSt.node_id = nodes.map NodeSt.node_id
    ∧ (runCmds nodes cmds).map NodeSt.fragment = nodes.map NodeSt.fragment :=
  ⟨runCmds_map_preserve cmds nodes NodeSt.node_id (fun _ _ => rfl),
   runCmds_map_preserve cmds nodes NodeSt.fragment (fun _ _ => rfl)⟩

end SanSim
